import Mathlib

/-!
Verification development for the text-to-bpmn converter
(`app/converter.py`).  The Python source is shallowly embedded below:
pure Python functions become Lean functions on `String` / `List Char`,
regular-expression operations are either hand-translated to
deterministic scanners (when the pattern is deterministic, i.e. every
quantifier is followed by a literal that cannot overlap it) or run on a
small backtracking regex engine that mirrors Python's leftmost,
depth-first, lazy/greedy matching order.  Machine text is Unicode;
character classes (`\s`, `\w`) are translated to predicates that agree
with Python's on the character repertoire the program manipulates
(ASCII plus Arabic/Persian letters, digits and punctuation).
-/

namespace TextToBpmn

/-- Python `\s` / `str.isspace` over the relevant repertoire:
ASCII whitespace and separators plus the Unicode space characters. -/
def isPySpace (c : Char) : Bool :=
  let n := c.toNat
  (0x09 ≤ n && n ≤ 0x0D) || n == 0x20 || (0x1C ≤ n && n ≤ 0x1F) ||
  n == 0x85 || n == 0xA0 || n == 0x1680 ||
  (0x2000 ≤ n && n ≤ 0x200A) || n == 0x2028 || n == 0x2029 ||
  n == 0x202F || n == 0x205F || n == 0x3000

/-- Python `\w` (word character) over the relevant repertoire:
ASCII alphanumerics and underscore, Arabic/Persian letters and digits.
Combining marks (e.g. U+064B tanwīn) and Arabic punctuation
(`،` U+060C, `؛` U+061B, `؟` U+061F) are not word characters,
matching Python. -/
def isWordChar (c : Char) : Bool :=
  let n := c.toNat
  c.isAlphanum || c == '_' ||
  (0x620 ≤ n && n ≤ 0x64A) ||
  (0x660 ≤ n && n ≤ 0x669) ||
  (0x66E ≤ n && n ≤ 0x66F) ||
  (0x671 ≤ n && n ≤ 0x6D3) || n == 0x6D5 ||
  (0x6F0 ≤ n && n ≤ 0x6F9) ||
  (0x6FA ≤ n && n ≤ 0x6FF)

/-- Sentence delimiters of `_extract_steps`: the class `[.\n\r؛]`. -/
def isDelim (c : Char) : Bool :=
  c == '.' || c == '\n' || c == '\r' || c == '؛'

/-- Case-insensitive character comparison (re.IGNORECASE); the
patterns are ASCII/Persian, where Lean's ASCII `Char.toLower`
agrees with Python's case folding. -/
def charIEq (a b : Char) : Bool := a.toLower == b.toLower

/-- Does `pat` occur as a prefix of `s`, comparing case-insensitively
when `ci` is set? -/
def prefixMatch (ci : Bool) : List Char → List Char → Bool
  | [], _ => true
  | _ :: _, [] => false
  | p :: ps, c :: cs => (if ci then charIEq p c else p == c) && prefixMatch ci ps cs

/-- Python `pat in s` (substring containment). -/
def containsSeq (pat : List Char) : List Char → Bool
  | [] => pat.isEmpty
  | c :: rest => prefixMatch false pat (c :: rest) || containsSeq pat rest

/-- Python `s.strip(chars)`: drop characters of `set` from both ends. -/
def stripChars (set : List Char) (s : List Char) : List Char :=
  ((s.dropWhile (· ∈ set)).reverse.dropWhile (· ∈ set)).reverse

/-- Python `s.strip()`: drop whitespace from both ends. -/
def stripWs (s : List Char) : List Char :=
  ((s.dropWhile isPySpace).reverse.dropWhile isPySpace).reverse

/-- Python `s.split()` (and the word list of `re.split(r"\s+")`):
maximal whitespace-free fragments of `s`, in order.  Written as a
right fold: a non-space character either starts a fresh word (end of
string or a space follows) or extends the word the rest begins with. -/
def wordsOf : List Char → List (List Char)
  | [] => []
  | c :: rest =>
    let ws := wordsOf rest
    if isPySpace c then ws
    else
      match rest with
      | [] => [[c]]
      | d :: _ =>
        if isPySpace d then [c] :: ws
        else
          match ws with
          | [] => [[c]]
          | w :: t => (c :: w) :: t

/-- Left-to-right scan of `re.sub(r"\s+", " ", s)`: the flag records
that the current whitespace run has already emitted its space. -/
def collapseRunsGo : Bool → List Char → List Char
  | _, [] => []
  | inRun, c :: rest =>
    if isPySpace c then
      if inRun then collapseRunsGo true rest
      else ' ' :: collapseRunsGo true rest
    else c :: collapseRunsGo false rest

/-- `re.sub(r"\s+", " ", s)`: replace every maximal whitespace run by
a single space (no stripping). -/
def collapseRuns (s : List Char) : List Char := collapseRunsGo false s

/-- `re.sub(r"\s+", " ", s.strip())`: collapse whitespace after
stripping both ends. -/
def collapseWs (s : List Char) : List Char := collapseRuns (stripWs s)

/-- `re.split` on a single-character class: split `s` at every
character satisfying `p`, keeping empty pieces (Python keeps them;
the caller drops them). -/
def splitOnPred (p : Char → Bool) : List Char → List (List Char)
  | [] => [[]]
  | c :: rest =>
    if p c then [] :: splitOnPred p rest
    else
      match splitOnPred p rest with
      | [] => [[c]]
      | h :: t => (c :: h) :: t

/-- Little-endian base-10 digits of `n`; `fuel` only bounds the
recursion depth and any `fuel > n` is exact (shown in
`natDigitsRev_eq_digits`). -/
def natDigitsRev : Nat → Nat → List Nat
  | 0, _ => []
  | fuel + 1, n => if n = 0 then [] else n % 10 :: natDigitsRev fuel (n / 10)

/-- Decimal rendering of a natural number, as Python's `f"{n}"`. -/
def natDec (n : Nat) : String :=
  if n = 0 then "0"
  else ⟨(natDigitsRev (n + 1) n).reverse.map Nat.digitChar⟩

/-- `" ".join(ws)`. -/
def joinSpace (ws : List (List Char)) : List Char :=
  (List.intersperse [' '] ws).flatten

/-- Python `\b` between adjacent (optional) characters: exactly one
side is a word character; a string edge counts as non-word. -/
def boundaryB (a b : Option Char) : Bool :=
  (a.elim false isWordChar) != (b.elim false isWordChar)

/-- One `re.sub(pat, repl, s)` for a literal pattern `pat`, optionally
bracketed by `\b` on both sides (`wb`), case-insensitive when `ci`.
Matches are located left to right in the original string and do not
overlap; boundary tests look at the original characters, as Python's
engine does.  `prev` is the original character preceding the scan
position; a positive `skip` means that many characters of the current
match remain to be consumed (replaced output already emitted). -/
def replaceScanGo (wb ci : Bool) (pat repl : List Char) :
    Nat → Option Char → List Char → List Char
  | _, _, [] => []
  | skip + 1, _, c :: rest => replaceScanGo wb ci pat repl skip (some c) rest
  | 0, prev, c :: rest =>
    if prefixMatch ci pat (c :: rest) &&
       (!wb || (boundaryB prev (some c) &&
                boundaryB ((c :: rest)[pat.length - 1]?) ((c :: rest)[pat.length]?)))
    then repl ++ replaceScanGo wb ci pat repl (pat.length - 1) (some c) rest
    else c :: replaceScanGo wb ci pat repl 0 (some c) rest

/-- `re.sub` of a literal (word-bounded) pattern over a whole string. -/
def pyReplaceAll (wb ci : Bool) (pat repl s : List Char) : List Char :=
  replaceScanGo wb ci pat repl 0 none s

/-- The connector substitutions of `_extract_steps`, in source order;
`true` marks the patterns written with `\b` at both ends. -/
def connectorSubs : List (Bool × List Char) :=
  [(true, "then".data), (true, "and then".data), (true, "afterwards".data),
   (true, "after that".data), (true, "finally".data), (true, "at last".data),
   (true, "ultimately".data), (true, "subsequently".data), (true, "next".data),
   (true, "and".data),
   (false, "سپس".data), (false, "بعداً".data), (false, "بعد از آن".data),
   (false, "در نهایت".data), (false, "و سپس".data), (false, "و در نهایت".data)]

/-- Rewrite every recognized connector into a sentence delimiter,
one `re.sub(connector, ".", ..., re.IGNORECASE)` at a time. -/
def applyConnectors (s : List Char) : List Char :=
  connectorSubs.foldl (fun acc wp => pyReplaceAll wp.1 true wp.2 ['.'] acc) s

/-- Alternatives of the headline pattern
`\b(includes|consists of|comprises|شامل|متشکل از)\b`, in source order. -/
def headlineWords : List (List Char) :=
  ["includes".data, "consists of".data, "comprises".data,
   "شامل".data, "متشکل از".data]

/-- Leftmost match of the headline pattern: returns the characters
after the end of the match, or `none`.  Python tries the positions
left to right and, at one position, the alternatives in order. -/
def findHeadlineEnd (prev : Option Char) : List Char → Option (List Char)
  | [] => none
  | c :: rest =>
    match headlineWords.find? (fun w =>
        prefixMatch true w (c :: rest) && boundaryB prev (some c) &&
        boundaryB ((c :: rest)[w.length - 1]?) ((c :: rest)[w.length]?)) with
    | some w => some ((c :: rest).drop w.length)
    | none => findHeadlineEnd (some c) rest

/-- Lookahead words of the comma-splitting pattern
`,[ ]*(?=(?:and|then|after|finally|در نهایت|سپس|و)\b)`. -/
def commaLookWords : List (List Char) :=
  ["and".data, "then".data, "after".data, "finally".data,
   "در نهایت".data, "سپس".data, "و".data]

/-- Does the comma-split lookahead hold at the head of `s`? -/
def commaLookahead (s : List Char) : Bool :=
  commaLookWords.any (fun w =>
    prefixMatch true w s && boundaryB (s[w.length - 1]?) (s[w.length]?))

/-- `comma_split_pattern.split f`: split at each `,`+spaces whose
lookahead succeeds; the matched comma and its following space run are
dropped (the run is maximal, which is exact because no lookahead word
starts with a space; the spaces are removed from the head of the
following piece, where the recursion necessarily placed them, since a
match can only begin at a comma). -/
def commaSplit : List Char → List (List Char)
  | [] => [[]]
  | c :: rest =>
    match commaSplit rest with
    | [] => [[c]]
    | h :: t =>
      if c == ',' && commaLookahead (rest.dropWhile (· == ' ')) then
        [] :: h.dropWhile (· == ' ') :: t
      else (c :: h) :: t

/-- Alternatives of the leading-connector pattern of `_extract_steps`,
in source order. -/
def leadConnWords : List (List Char) :=
  ["and".data, "then".data, "after".data, "finally".data, "next".data,
   "ultimately".data, "در نهایت".data, "سپس".data, "بعداً".data,
   "بعد از آن".data, "و".data, "و سپس".data]

/-- `re.sub(r"^(?:and|...|و سپس)\b[\s،]*", "", f)`: drop a leading
connector word (first alternative, in order, whose trailing `\b`
holds) together with the following whitespace/`،` run. -/
def dropLeadConn (s : List Char) : List Char :=
  match leadConnWords.find? (fun w =>
      prefixMatch true w s && boundaryB (s[w.length - 1]?) (s[w.length]?)) with
  | some w => (s.drop w.length).dropWhile (fun c => isPySpace c || c == '،')
  | none => s

/-- `if prefixMatch then rest else none` helper for literal pieces. -/
def dropLit (pat s : List Char) : Option (List Char) :=
  if prefixMatch false pat s then some (s.drop pat.length) else none

/-- `\s+` (at least one whitespace character, maximal). -/
def dropWs1 : List Char → Option (List Char)
  | [] => none
  | c :: rest => if isPySpace c then some (rest.dropWhile isPySpace) else none

/-- Does `در\s+کل\s*،?\s*فرایند\s+شامل` match at the head of `s`?
Each quantifier is followed by a literal that cannot overlap it, so a
maximal-munch scan is exact; the trailing `.*` (with DOTALL) of the
source pattern always matches and is omitted. -/
def summaryMatchAt (s : List Char) : Bool :=
  (do
    let s ← dropLit "در".data s
    let s ← dropWs1 s
    let s ← dropLit "کل".data s
    let s := s.dropWhile isPySpace
    let s := if s.head? == some '،' then s.drop 1 else s
    let s := s.dropWhile isPySpace
    let s ← dropLit "فرایند".data s
    let s ← dropWs1 s
    let _ ← dropLit "شامل".data s
    pure ()).isSome

/-- `re.split(summary_pattern, t)[0]`: the prefix of `t` before the
leftmost position where the trailing-summary pattern matches. -/
def summaryCutList : List Char → List Char
  | [] => []
  | c :: rest =>
    if summaryMatchAt (c :: rest) then [] else c :: summaryCutList rest

/-- `_extract_steps`, on character lists. -/
def extractStepsL (t : List Char) : List (List Char) :=
  let cleaned := collapseWs (summaryCutList t)
  if cleaned.isEmpty then [] else
  let cleaned :=
    match findHeadlineEnd none cleaned with
    | some suf => stripChars " :،,".data suf
    | none => cleaned
  let normalized := applyConnectors cleaned
  (splitOnPred isDelim normalized).flatMap (fun frag =>
    let frag := stripChars " -:،,".data frag
    if frag.isEmpty then [] else
    (commaSplit frag).flatMap (fun sub =>
      let sub := stripChars " -:،,".data sub
      if sub.isEmpty then [] else
      let sub2 := dropLeadConn sub
      if sub2.isEmpty then [] else [sub2]))

/-- `_extract_steps` of the source. -/
def _extract_steps (t : String) : List String :=
  (extractStepsL t.data).map (⟨·⟩)

/-- The greedy word-packing loop of `_wrap_label`; `current`/`clen`
mirror the Python loop state, the produced list is the `lines` list. -/
def wrapLoop (maxc : Nat) : List (List Char) → List (List Char) → Nat → List (List Char)
  | [], current, _ => if current.isEmpty then [] else [joinSpace current]
  | w :: ws, current, clen =>
    let sep := if current.isEmpty then 0 else 1
    if maxc < clen + sep + w.length then
      joinSpace current :: wrapLoop maxc ws [w] w.length
    else
      wrapLoop maxc ws (current ++ [w]) (clen + sep + w.length)

/-- `_wrap_label` on character lists (width parameter as in source). -/
def wrapLabelL (maxc : Nat) (t : List Char) : List Char :=
  let ws := wordsOf t
  if ws.isEmpty then t
  else (List.intersperse ['\n'] (wrapLoop maxc ws [] 0)).flatten

/-- `_wrap_label` of the source (default width 24). -/
def _wrap_label (t : String) : String := ⟨wrapLabelL 24 t.data⟩

/-- The lines of a produced label: split at newline characters. -/
def linesOf (s : List Char) : List (List Char) :=
  splitOnPred (· == '\n') s

/-- Abstract syntax of the regular expressions used by `_detect_branch`,
`_detect_multi_branch` and `_label_with_role`.  The literals of those
patterns are Persian or punctuation, on which `re.IGNORECASE` has no
effect, so literals are matched case-sensitively. -/
inductive RE where
  | eps
  | cls (f : Char → Bool)
  | lit (cs : List Char)
  | seq (a b : RE)
  | alt (a b : RE)
  | opt (a : RE)
  | starG (a : RE)
  | starL (a : RE)
  | look (a : RE)
  | eos
  | grp (n : Nat) (a : RE)

/-- Captured groups: most recent binding first. -/
def Caps := List (Nat × List Char)

/-- Backtracking matcher in continuation style.  Alternatives are tried
in Python's order: left alternative first, greedy quantifiers prefer
longer, lazy ones shorter, lookahead is atomic, and a star never takes
a zero-width iteration — so the first success found is exactly the
match Python reports.  `fuel` bounds recursion depth; the wrappers
supply fuel ample for these patterns and inputs. -/
def reM : {α : Type} → Nat → RE → List Char → Caps →
    (List Char → Caps → Option α) → Option α
  | _, 0, _, _, _, _ => none
  | _, fuel + 1, re, s, caps, k =>
    match re with
    | .eps => k s caps
    | .cls f =>
      match s with
      | [] => none
      | c :: rest => if f c then k rest caps else none
    | .lit cs => if prefixMatch false cs s then k (s.drop cs.length) caps else none
    | .seq a b => reM fuel a s caps (fun s1 c1 => reM fuel b s1 c1 k)
    | .alt a b => reM fuel a s caps k <|> reM fuel b s caps k
    | .opt a => reM fuel a s caps k <|> k s caps
    | .starG a =>
      (reM fuel a s caps (fun s1 c1 =>
        if s1.length < s.length then reM fuel (.starG a) s1 c1 k else none)) <|>
      k s caps
    | .starL a =>
      k s caps <|>
      reM fuel a s caps (fun s1 c1 =>
        if s1.length < s.length then reM fuel (.starL a) s1 c1 k else none)
    | .look a =>
      match reM fuel a s caps (fun s1 c1 => some (s1, c1)) with
      | some (_, c1) => k s c1
      | none => none
    | .eos => if s.isEmpty then k s caps else none
    | .grp n a =>
      reM fuel a s caps (fun s1 c1 => k s1 ((n, s.take (s.length - s1.length)) :: c1))

/-- Lazy `+` (`(...)+?`): one mandatory iteration, then a lazy star. -/
def plusL (a : RE) : RE := .seq a (.starL a)

/-- Greedy `+`. -/
def plusG (a : RE) : RE := .seq a (.starG a)

/-- `\s` as a regex atom. -/
def wsRE : RE := .cls isPySpace

/-- `.` without DOTALL: anything but a newline. -/
def anyNN : RE := .cls (· != '\n')

/-- `.` with DOTALL. -/
def anyDA : RE := .cls (fun _ => true)

/-- Sequence a list of regex pieces. -/
def seqL (l : List RE) : RE := l.foldr .seq .eps

/-- `re.search`, keeping the prefix before the leftmost match: returns
`(prefix, captures, suffix after match end)`. -/
def reSearchAt (fuel : Nat) (re : RE) :
    List Char → Option (List Char × Caps × List Char)
  | [] =>
    (reM fuel re [] [] (fun rest caps => some (caps, rest))).map
      (fun cr => ([], cr))
  | c :: rest =>
    match reM fuel re (c :: rest) [] (fun r caps => some (caps, r)) with
    | some cr => some ([], cr)
    | none => (reSearchAt fuel re rest).map (fun pr => (c :: pr.1, pr.2))

/-- `re.search` without the prefix. -/
def reSearch (fuel : Nat) (re : RE) (s : List Char) :
    Option (Caps × List Char) :=
  (reSearchAt fuel re s).map (·.2)

/-- `m.group(n)` (empty when the group did not participate). -/
def capGet (caps : Caps) (n : Nat) : List Char :=
  match caps with
  | [] => []
  | (m, v) :: rest => if m = n then v else capGet rest n

/-- `re.sub(re, repl, s)` over all (non-overlapping, left-to-right)
matches; the patterns passed here always consume at least one
character, so the progress guard never fires on a real match.
`sfuel` only bounds the iteration count; the wrapper passes one more
than the input length, which the guard makes ample. -/
def reSubGo (fuel : Nat) (re : RE) (repl : List Char) :
    Nat → List Char → List Char
  | 0, s => s
  | sfuel + 1, s =>
    match reSearchAt fuel re s with
    | none => s
    | some (pre, _, rest) =>
      if rest.length < s.length then pre ++ repl ++ reSubGo fuel re repl sfuel rest
      else s

/-- `re.sub(re, repl, s)` over all matches. -/
def reSubAll (fuel : Nat) (re : RE) (repl : List Char) (s : List Char) :
    List Char :=
  reSubGo fuel re repl (s.length + 1) s

/-- Fuel ample for the patterns above on input `s`: recursion depth is
bounded by the pattern size plus a few levels per consumed character. -/
def reFuel (s : List Char) : Nat := 400 + 40 * s.length

/-- The `Branch` record of the source; an empty `after_no_action`
encodes the absent key (the source only stores the key when the
extracted follow-up is non-empty). -/
structure Branch where
  question : String
  yes_action : String
  no_action : String
  after_no_action : String
deriving Repr, DecidableEq

/-- The `MultiBranch` record of the source. -/
structure MultiBranch where
  question : String
  branches : List String
deriving Repr, DecidableEq

/-- Punctuation normalization of `_detect_branch`: `،`→`,`, `؛`→`;`,
and the zero-width non-joiner removed. -/
def normPunct (s : List Char) : List Char :=
  (s.map (fun c => if c == '،' then ',' else if c == '؛' then ';' else c)).filter
    (fun c => c != '‌')

/-- Python `s.endswith(suffix)`. -/
def pyEndsWith (s suf : String) : Bool := suf.data.isSuffixOf s.data

/-- `_normalize_condition` of the source. -/
def _normalize_condition (text : String) : String :=
  let t := collapseWs text.data
  let t := pyReplaceAll true false "باشد".data "است".data t
  let t : String := ⟨t⟩
  if pyEndsWith t "؟" then t else t ++ "؟"

/-- Grammar 1 of `_detect_branch` (inline `اگر … , … اما|ولی اگر …`). -/
def reBranch1 : RE := seqL [
  .lit "اگر".data, plusG wsRE,
  .grp 1 (plusL anyNN),
  .starG wsRE, .opt (.alt (.lit "باشد".data) (.lit "است".data)),
  .starG wsRE, .lit ",".data, .starG wsRE,
  .grp 2 (plusL anyNN),
  .starG wsRE, .opt (.alt (.lit ".".data) (plusG wsRE)),
  .starG wsRE, .alt (.lit "اما".data) (.lit "ولی".data),
  plusG wsRE, .lit "اگر".data, plusG wsRE,
  .grp 3 (plusL (.cls (· != '.'))),
  .alt (.lit ".".data) (.seq (.starG wsRE) .eos)]

/-- `[,،]` (the text fed to grammar 2 is already comma-normalized). -/
def clsComma : RE := .cls (fun c => c == ',' || c == '،')

/-- `[.;؛]`. -/
def clsSent : RE := .cls (fun c => c == '.' || c == ';' || c == '؛')

/-- Grammar 2 of `_detect_branch` (the `در صورتی که` form). -/
def reBranch2 : RE := seqL [
  .lit "در".data, plusG wsRE, .lit "صورتی".data, plusG wsRE,
  .lit "که".data, plusG wsRE,
  .grp 1 (plusL anyNN),
  .starG wsRE, .opt (.alt (.lit "باشد".data) (.lit "است".data)),
  .starG wsRE, clsComma, .starG wsRE,
  .grp 2 (plusL anyNN),
  .starG wsRE, .alt clsSent .eos,
  .starG wsRE, .alt (.lit "اما".data) (.lit "ولی".data),
  plusG wsRE, .lit "در".data, plusG wsRE, .lit "صورتی".data, plusG wsRE,
  .lit "که".data, plusG wsRE,
  .grp 3 (plusL anyNN),
  .starG wsRE, .opt (.alt (.lit "باشد".data) (.lit "است".data)),
  .starG wsRE, clsComma, .starG wsRE,
  .grp 4 (plusL anyNN),
  .alt clsSent (.seq (.starG wsRE) .eos)]

/-- Grammar 3 of `_detect_branch` (paragraph/colon form, DOTALL, run on
the raw input text). -/
def reBranch3 : RE := seqL [
  .lit "اگر".data, plusG wsRE,
  .grp 1 (plusG (.cls (· != ':'))), .lit ":".data, .starG wsRE,
  .grp 2 (plusL anyDA),
  .starG wsRE, .opt (.alt (.lit "اما".data) (.lit "ولی".data)), .starG wsRE,
  .lit "اگر".data, plusG wsRE,
  .grp 3 (plusG (.cls (· != ':'))), .lit ":".data, .starG wsRE,
  .grp 4 (plusG anyDA)]

/-- Follow-up extraction shared by grammars 1 and 2:
`remainder.strip()`, and when non-empty the piece before the first
`.`/`;`, stripped. -/
def afterNoOf (rest : List Char) : List Char :=
  let remainder := stripWs rest
  if remainder.isEmpty then []
  else stripWs ((splitOnPred (fun c => c == '.' || c == ';') remainder).headD [])

/-- `_detect_branch` up to (not including) the role-prefixing step:
the `اگر` guard, punctuation normalization, the three grammars tried
in order, follow-up extraction and question normalization. -/
def detectBranchRaw (user_text : String) : Option Branch :=
  let text := collapseWs user_text.data
  if !containsSeq "اگر".data text then none
  else
    let norm := normPunct text
    match reSearch (reFuel norm) reBranch1 norm with
    | some (caps, rest) =>
      some { question := _normalize_condition ⟨stripWs (capGet caps 1)⟩,
             yes_action := ⟨stripWs (capGet caps 2)⟩,
             no_action := ⟨stripWs (capGet caps 3)⟩,
             after_no_action := ⟨afterNoOf rest⟩ }
    | none =>
      match reSearch (reFuel norm) reBranch2 norm with
      | some (caps, rest) =>
        some { question := _normalize_condition ⟨stripWs (capGet caps 1)⟩,
               yes_action := ⟨stripWs (capGet caps 2)⟩,
               no_action := ⟨stripWs (capGet caps 4)⟩,
               after_no_action := ⟨afterNoOf rest⟩ }
      | none =>
        match reSearch (reFuel user_text.data) reBranch3 user_text.data with
        | some (caps, _) =>
          some { question := _normalize_condition ⟨stripWs (collapseRuns (capGet caps 1))⟩,
                 yes_action := ⟨stripWs (collapseRuns (capGet caps 2))⟩,
                 no_action := ⟨stripWs (collapseRuns (capGet caps 4))⟩,
                 after_no_action := "" }
        | none => none

/-- The role keyword of the branch heuristic. -/
def expertTok : List Char := "کارشناس".data

/-- The role-prefixing step of `_detect_branch`; the
`after_no_action` conditional of the source is a literal no-op
(`pass`) and contributes nothing. -/
def roleStep (ctext : List Char) (b : Branch) : Branch :=
  if containsSeq expertTok ctext then
    { b with
      yes_action :=
        if containsSeq expertTok b.yes_action.data then b.yes_action
        else "کارشناس " ++ b.yes_action,
      no_action :=
        if containsSeq expertTok b.no_action.data then b.no_action
        else "کارشناس " ++ b.no_action }
  else b

/-- `_detect_branch` of the source. -/
def _detect_branch (user_text : String) : Option Branch :=
  (detectBranchRaw user_text).map (roleStep (collapseWs user_text.data))

/-- The repeated-clause pattern of `_detect_multi_branch`. -/
def reMulti : RE := seqL [
  .lit "اگر".data, plusG wsRE,
  .grp 1 (plusL anyNN),
  .opt (.seq (plusG wsRE)
    (.alt (.lit "بود".data) (.alt (.lit "باشد".data) (.lit "است".data)))),
  .starG wsRE, .opt (.cls (fun c => c == ':' || c == '،' || c == ',')),
  .starG wsRE,
  .grp 2 (plusL anyNN),
  .look (.alt
    (seqL [plusG wsRE, .opt (.seq (.lit "و".data) (plusG wsRE)),
           .lit "اگر".data,
           .alt .eos (.look (.cls (fun c => !isWordChar c)))])
    .eos)]

/-- `pattern.findall(text)`: all non-overlapping matches, scanning
left to right, each resumed at the previous match's end.  The pattern
always consumes at least the literal `اگر`, so matches are non-empty
and the termination guard never fires on a real match. -/
def findAllGo (fuel : Nat) : Nat → List Char → List (List Char × List Char)
  | 0, _ => []
  | sfuel + 1, s =>
    match reSearch fuel reMulti s with
    | none => []
    | some (caps, rest) =>
      (capGet caps 1, capGet caps 2) ::
      (if rest.length < s.length then findAllGo fuel sfuel rest else [])

/-- `pattern.findall(text)` wrapper (iteration bound one more than the
input length, ample by the progress guard). -/
def findAllMulti (fuel : Nat) (s : List Char) :
    List (List Char × List Char) :=
  findAllGo fuel (s.length + 1) s

/-- `re.sub(r"[.؛]+$", "", a)`: drop the trailing run of `.`/`؛`. -/
def dropTrailPunct (l : List Char) : List Char :=
  (l.reverse.dropWhile (fun c => c == '.' || c == '؛')).reverse

/-- `_detect_multi_branch` of the source. -/
def _detect_multi_branch (user_text : String) : Option MultiBranch :=
  let text := collapseRuns user_text.data
  let ms := findAllMulti (reFuel text) text
  if ms.length < 2 then none
  else some { question := "تصمیم‌گیری",
              branches := ms.map (fun m => ⟨dropTrailPunct (stripWs m.2)⟩) }

/-- The priority-ordered role list of `_label_with_role`. -/
def roleList : List String :=
  ["کارشناس ارشد پشتیبانی ستاد", "کارشناس ارشد", "کارشناس بررسی شکایت",
   "کارشناس پشتیبانی", "کارشناس شکایت ستاد", "کارشناس ستاد",
   "کارشناس اولیه", "کارشناس", "کارمند", "کاربر"]

/-- The generic-preface pattern of `_label_with_role`:
`فرایند.+?(?:به شرح (?:ذیل|زیر) (?:میباشد|است)?:?)`. -/
def rePreface : RE := seqL [
  .lit "فرایند".data, plusL anyNN,
  .lit "به شرح ".data, .alt (.lit "ذیل".data) (.lit "زیر".data),
  .lit " ".data,
  .opt (.alt (.lit "میباشد".data) (.lit "است".data)), .opt (.lit ":".data)]

/-- `_label_with_role` of the source. -/
def _label_with_role (text : String) : String :=
  let rt :=
    match roleList.find? (fun r => containsSeq r.data text.data) with
    | some r => (r.data, pyReplaceAll false false r.data [] text.data)
    | none => ([], text.data)
  let t := reSubAll (reFuel rt.2) rePreface [] rt.2
  let action := stripChars " :،,-".data t
  if rt.1.isEmpty then ⟨action⟩
  else ⟨rt.1 ++ "\n—\n".data ++ action⟩

/-- `_format_label_with_role` of the source. -/
def _format_label_with_role (step : String) : String :=
  _wrap_label (_label_with_role step)

/-- A node of the produced graph.  `ntype` is one of the
`node_types` values of the source (`start`/`task`/`gateway`/`end`),
`col`/`row` are the source's `node_columns`/`node_rows` entries
(for the linear diagram, `col` is the node's list index, which is what
`_build_diagrams` positions by), and `label` the unescaped name. -/
structure BNode where
  id : String
  ntype : String
  label : String
  col : Nat
  row : Nat
deriving Repr, DecidableEq

/-- A sequence flow of the produced graph. -/
structure BEdge where
  id : String
  src : String
  tgt : String
deriving Repr, DecidableEq

/-- The produced graph: nodes in document order, flows in creation
order. -/
structure BGraph where
  nodes : List BNode
  edges : List BEdge
deriving Repr, DecidableEq

/-- `f"Activity_{n}"`. -/
def activityId (n : Nat) : String := "Activity_" ++ natDec n

/-- `f"Activity_B_{n}"`. -/
def activityBId (n : Nat) : String := "Activity_B_" ++ natDec n

/-- `f"Flow_{n}"`. -/
def flowId (n : Nat) : String := "Flow_" ++ natDec n

/-- Task nodes `Activity_i` for the given labels, numbered from `i`,
with `col = i` and row 0 (linear tasks and pre-branch tasks). -/
def mkTasks : List String → Nat → List BNode
  | [], _ => []
  | l :: ls, i => ⟨activityId i, "task", l, i, 0⟩ :: mkTasks ls (i + 1)

/-- Consecutive pairs `(l[j], l[j+1])` of a list. -/
def chainPairs : List String → List (String × String)
  | [] => []
  | [_] => []
  | a :: b :: rest => (a, b) :: chainPairs (b :: rest)

/-- Number a list of flow endpoints sequentially from `k`
(`add_flow` of the source). -/
def numberFlows : List (String × String) → Nat → List BEdge
  | [], _ => []
  | (a, b) :: rest, k => ⟨flowId k, a, b⟩ :: numberFlows rest (k + 1)

/-- Linear fallback graph: `[start] + tasks + [end]` with the chain of
flows `Flow_1 … Flow_{n+1}`. -/
def buildLinear (steps : List String) : BGraph :=
  let tasks := mkTasks (steps.map _format_label_with_role) 1
  let nodes := ⟨"StartEvent_1", "start", "شروع", 0, 0⟩ ::
    (tasks ++ [⟨"EndEvent_1", "end", "پایان", steps.length + 1, 0⟩])
  ⟨nodes, numberFlows (chainPairs (nodes.map BNode.id)) 1⟩

/-- One branch arm as a chain of `(node id, formatted label)` pairs. -/
def Arm := List (String × String)

/-- The two arms of a single `Branch`: the yes task, and the no task
optionally followed by the `Activity_No_2` follow-up (the source keys
`after_no_action` only when the extracted follow-up is non-empty, and
`if branch.get("after_no_action")` tests exactly that). -/
def armsOfBranch (b : Branch) : List Arm :=
  [[("Activity_Yes_1", _format_label_with_role b.yes_action)],
   ("Activity_No_1", _format_label_with_role b.no_action) ::
     (if b.after_no_action ≠ "" then
        [("Activity_No_2", _format_label_with_role b.after_no_action)]
      else [])]

/-- Singleton arms `Activity_B_i` of a `MultiBranch`, numbered from `i`. -/
def mkArmsB : List String → Nat → List Arm
  | [], _ => []
  | a :: rest, i => [(activityBId i, _format_label_with_role a)] :: mkArmsB rest (i + 1)

/-- The arm nodes of one arm: columns chained from `c`, all at row `r`. -/
def armChain : Arm → Nat → Nat → List BNode
  | [], _, _ => []
  | (i, l) :: rest, c, r => ⟨i, "task", l, c, r⟩ :: armChain rest (c + 1) r

/-- All arm nodes: arm `j` at row `j`, each arm starting at column `c0`
(= split column + 1). -/
def mkArmNodes : List Arm → Nat → Nat → List BNode
  | [], _, _ => []
  | arm :: rest, r, c0 => armChain arm c0 r ++ mkArmNodes rest (r + 1) c0

/-- `user_text.split("اگر", 1)[0]`: the prefix before the first
occurrence of the marker (the whole string when absent). -/
def beforeFirst (pat : List Char) : List Char → List Char
  | [] => []
  | c :: rest =>
    if prefixMatch false pat (c :: rest) then []
    else c :: beforeFirst pat rest

/-- The pre-branch steps: steps extracted from the text before the
first `اگر`. -/
def gatewayPre (user_text : String) : List String :=
  _extract_steps ⟨beforeFirst "اگر".data user_text.data⟩

/-- The pre-branch task nodes `Activity_1 …`. -/
def gatewayPreNodes (user_text : String) : List BNode :=
  mkTasks ((gatewayPre user_text).map _format_label_with_role) 1

/-- The split gateway's column: `last pre column + 1` when there are
pre tasks and the literal 1 otherwise — both equal `pre.length + 1`. -/
def gatewaySplitCol (user_text : String) : Nat :=
  (gatewayPre user_text).length + 1

/-- The arm task nodes, arm `j` at row `j`, columns from
split column + 1. -/
def gatewayArmNodes (user_text : String) (arms : List Arm) : List BNode :=
  mkArmNodes arms 0 (gatewaySplitCol user_text + 1)

/-- `max(branch_levels.values())` (split column when no arm node,
which the callers never produce). -/
def gatewayMaxLevel (user_text : String) (arms : List Arm) : Nat :=
  if (gatewayArmNodes user_text arms).isEmpty then gatewaySplitCol user_text
  else ((gatewayArmNodes user_text arms).map (·.col)).foldl max 0

/-- The node order of the gateway-mode graph: start, pre tasks, split,
arm tasks, join, end. -/
def gatewayNodes (user_text question : String) (arms : List Arm) : List BNode :=
  ⟨"StartEvent_1", "start", "شروع", 0, 0⟩ ::
    (gatewayPreNodes user_text ++
     [⟨"Gateway_Split_1", "gateway", question, gatewaySplitCol user_text, 0⟩] ++
     gatewayArmNodes user_text arms ++
     [⟨"Gateway_Join_1", "gateway", "", gatewayMaxLevel user_text arms + 1, 0⟩,
      ⟨"EndEvent_1", "end", "پایان", gatewayMaxLevel user_text arms + 2, 0⟩])

/-- `branch_start_ids`: the first node id of each arm. -/
def armFirstIds (arms : List Arm) : List String :=
  arms.filterMap (fun a => a.head?.map Prod.fst)

/-- `branch_end_ids`: the last node id of each arm. -/
def armLastIds (arms : List Arm) : List String :=
  arms.filterMap (fun a => a.getLast?.map Prod.fst)

/-- `branch_internal_edges`: the chain inside each arm
(`Activity_No_1 → Activity_No_2` in the two-way case). -/
def armInternalPairs (arms : List Arm) : List (String × String) :=
  arms.flatMap (fun a => chainPairs (a.map Prod.fst))

/-- The flow endpoints of the gateway-mode graph, in the source's
`add_flow` order: start into the chain of pre tasks into the split
(start straight to the split when there are none), split to every arm
start, the arms' internal chains, every arm end to the join, join to
end. -/
def gatewayPairs (user_text : String) (arms : List Arm) :
    List (String × String) :=
  [("StartEvent_1",
    ((gatewayPreNodes user_text).map BNode.id).headD "Gateway_Split_1")] ++
  chainPairs ((gatewayPreNodes user_text).map BNode.id) ++
  (if ((gatewayPreNodes user_text).map BNode.id).isEmpty then [] else
    [(((gatewayPreNodes user_text).map BNode.id).getLastD "Gateway_Split_1",
      "Gateway_Split_1")]) ++
  (armFirstIds arms).map (fun i => ("Gateway_Split_1", i)) ++
  armInternalPairs arms ++
  (armLastIds arms).map (fun i => (i, "Gateway_Join_1")) ++
  [("Gateway_Join_1", "EndEvent_1")]

/-- The gateway-mode graph of `convert_text_to_bpmn`, shared by the
single-branch and multi-branch cases. -/
def buildGateway (user_text : String) (question : String)
    (arms : List Arm) : BGraph :=
  ⟨gatewayNodes user_text question arms,
   numberFlows (gatewayPairs user_text arms) 1⟩

/-- The user-facing failure message of `convert_text_to_bpmn`. -/
def noStepsMsg : String :=
  "امکان ساخت نمودار وجود ندارد. لطفاً توضیح را با جملات یا مراحل مشخص وارد کنید."

/-- The graph produced by `convert_text_to_bpmn` (before
serialization): the step-extraction failure, the branch detectors
tried in priority order, and the matching builder.  The split label is
`(branch or {}).get("question") or "تصمیم‌گیری"`: the branch's question
unless it is empty/absent. -/
def convertGraph (user_text : String) : Except String BGraph :=
  let steps := _extract_steps user_text
  if steps.isEmpty then .error noStepsMsg
  else
    match _detect_branch user_text with
    | some b =>
      .ok (buildGateway user_text
        (if b.question = "" then "تصمیم‌گیری" else b.question)
        (armsOfBranch b))
    | none =>
      match _detect_multi_branch user_text with
      | some mb => .ok (buildGateway user_text "تصمیم‌گیری" (mkArmsB mb.branches 1))
      | none => .ok (buildLinear steps)

/-- `xml.sax.saxutils.escape`. -/
def escapeXml (s : String) : String :=
  ⟨s.data.flatMap (fun c =>
    if c == '&' then "&amp;".data
    else if c == '<' then "&lt;".data
    else if c == '>' then "&gt;".data
    else [c])⟩

/-- The semantic process element of one node. -/
def processElem (n : BNode) : String :=
  if n.ntype = "start" then
    "<bpmn:startEvent id=\"" ++ n.id ++ "\" name=\"شروع\"/>"
  else if n.ntype = "end" then
    "<bpmn:endEvent id=\"" ++ n.id ++ "\" name=\"پایان\"/>"
  else if n.ntype = "gateway" then
    "<bpmn:exclusiveGateway id=\"" ++ n.id ++ "\" name=\"" ++
      escapeXml n.label ++ "\"/>"
  else
    "<bpmn:task id=\"" ++ n.id ++ "\" name=\"" ++ escapeXml n.label ++ "\"/>"

/-- The sequence-flow element of one edge. -/
def flowElem (e : BEdge) : String :=
  "<bpmn:sequenceFlow id=\"" ++ e.id ++ "\" sourceRef=\"" ++ e.src ++
    "\" targetRef=\"" ++ e.tgt ++ "\"/>"

/-- `label.count("\n") + 1`. -/
def labelLines (l : String) : Nat :=
  (l.data.filter (· == '\n')).length + 1

/-- Pixel bounds of a node, as `_build_diagrams_complex` computes them
(and as `_build_diagrams` does for the linear diagram, whose nodes are
only start/task/end and whose `col` is the list index): all the
Python float arithmetic here is on exact integers, so `Nat` is exact
(`x - 62` never underflows since task columns are ≥ 1, hence
x ≥ 320). -/
def nodeBounds (n : BNode) : Nat × Nat × Nat × Nat :=
  let x := 100 + 220 * n.col
  let y := 150 + 160 * n.row
  if n.ntype = "start" || n.ntype = "end" then (x, y, 36, 36)
  else if n.ntype = "gateway" then (x, y, 50, 50)
  else
    let lines := max 1 (labelLines n.label)
    let extra := lines - 2
    (x - 62, y, 160, 80 + extra * 18)

/-- The diagram-interchange shape of one node. -/
def shapeElem (n : BNode) : String :=
  let b := nodeBounds n
  "<bpmndi:BPMNShape id=\"" ++ n.id ++ "_di\" bpmnElement=\"" ++ n.id ++
  "\">\n        <dc:Bounds x=\"" ++ natDec b.1 ++ "\" y=\"" ++ natDec b.2.1 ++
  "\" width=\"" ++ natDec b.2.2.1 ++ "\" height=\"" ++ natDec b.2.2.2 ++
  "\"/>\n      </bpmndi:BPMNShape>"

/-- The diagram-interchange edge of one flow: two waypoints, right
edge centre of the source to left edge centre of the target. -/
def edgeElem (nodes : List BNode) (e : BEdge) : String :=
  let sb := ((nodes.find? (fun n => n.id == e.src)).map nodeBounds).getD (0, 0, 0, 0)
  let tb := ((nodes.find? (fun n => n.id == e.tgt)).map nodeBounds).getD (0, 0, 0, 0)
  "<bpmndi:BPMNEdge id=\"" ++ e.id ++ "_di\" bpmnElement=\"" ++ e.id ++
  "\">\n        <di:waypoint x=\"" ++ natDec (sb.1 + sb.2.2.1) ++ "\" y=\"" ++
  natDec (sb.2.1 + sb.2.2.2 / 2) ++
  "\"/>\n        <di:waypoint x=\"" ++ natDec tb.1 ++ "\" y=\"" ++
  natDec (tb.2.1 + tb.2.2.2 / 2) ++ "\"/>\n      </bpmndi:BPMNEdge>"

/-- The fixed document template around the three inserted trees. -/
def xmlDoc (processXml shapesXml edgesXml : String) : String :=
  "<?xml version=\"1.0\" encoding=\"UTF-8\"?>\n" ++
  "<bpmn:definitions xmlns:xsi=\"http://www.w3.org/2001/XMLSchema-instance\"\n" ++
  "                  xmlns:bpmn=\"http://www.omg.org/spec/BPMN/20100524/MODEL\"\n" ++
  "                  xmlns:bpmndi=\"http://www.omg.org/spec/BPMN/20100524/DI\"\n" ++
  "                  xmlns:dc=\"http://www.omg.org/spec/DD/20100524/DC\"\n" ++
  "                  xmlns:di=\"http://www.omg.org/spec/DD/20100524/DI\"\n" ++
  "                  id=\"Definitions_1\"\n" ++
  "                  targetNamespace=\"http://example.com/bpmn\">\n" ++
  "  <bpmn:process id=\"Process_1\" isExecutable=\"false\">\n      " ++
  processXml ++
  "\n  </bpmn:process>\n  <bpmndi:BPMNDiagram id=\"BPMNDiagram_1\">\n" ++
  "    <bpmndi:BPMNPlane id=\"BPMNPlane_1\" bpmnElement=\"Process_1\">\n      " ++
  shapesXml ++ "\n      " ++ edgesXml ++
  "\n    </bpmndi:BPMNPlane>\n  </bpmndi:BPMNDiagram>\n</bpmn:definitions>\n"

/-- Serialize a produced graph: process elements in node order,
sequence flows in creation order, then the two DI trees. -/
def serializeBpmn (g : BGraph) : String :=
  let processXml := String.intercalate "\n      "
    (g.nodes.map processElem ++ g.edges.map flowElem)
  let shapesXml := String.intercalate "\n      " (g.nodes.map shapeElem)
  let edgesXml := String.intercalate "\n      " (g.edges.map (edgeElem g.nodes))
  xmlDoc processXml shapesXml edgesXml

/-- `convert_text_to_bpmn` of the source: the XML document on success,
the `ValueError` message as the `Except` error otherwise. -/
def convert_text_to_bpmn (user_text : String) : Except String String :=
  (convertGraph user_text).map serializeBpmn

/-- Consecutive entries of `p` are joined by flows of `g`. -/
def Chainable (g : BGraph) : List String → Prop
  | [] => True
  | [_] => True
  | a :: b :: rest =>
    (∃ e ∈ g.edges, e.src = a ∧ e.tgt = b) ∧ Chainable g (b :: rest)

/-- `p` is a directed path of `g` from node id `s` to node id `t`. -/
def IsPathFromTo (g : BGraph) (s t : String) (p : List String) : Prop :=
  p.head? = some s ∧ p.getLast? = some t ∧ Chainable g p

/-- Well-formedness of a produced graph (claim C3): distinct node ids,
edge endpoints among the node ids, exactly one start and one end node,
and the degree conditions. -/
def WellFormed (g : BGraph) : Prop :=
  (g.nodes.map BNode.id).Nodup ∧
  (∀ e ∈ g.edges,
    e.src ∈ g.nodes.map BNode.id ∧ e.tgt ∈ g.nodes.map BNode.id) ∧
  (g.nodes.filter (fun n => n.ntype == "start")).length = 1 ∧
  (g.nodes.filter (fun n => n.ntype == "end")).length = 1 ∧
  (∀ n ∈ g.nodes, n.ntype ≠ "start" → ∃ e ∈ g.edges, e.tgt = n.id) ∧
  (∀ n ∈ g.nodes, n.ntype ≠ "end" → ∃ e ∈ g.edges, e.src = n.id)

/-- The node-id sequence of the linear graph on `n` steps. -/
def linearIds (n : Nat) : List String :=
  "StartEvent_1" ::
    ((List.range n).map (fun i => activityId (i + 1)) ++ ["EndEvent_1"])

/-! ### Lemmas -/

theorem mem_of_dropWhile {p : Char → Bool} {l : List Char} {c : Char}
    (h : c ∈ l.dropWhile p) : c ∈ l :=
  (List.dropWhile_sublist p).subset h

theorem mem_of_stripChars {set s : List Char} {c : Char}
    (h : c ∈ stripChars set s) : c ∈ s := by
  unfold stripChars at h
  have h1 := List.mem_reverse.mp h
  have h2 := mem_of_dropWhile h1
  have h3 := List.mem_reverse.mp h2
  exact mem_of_dropWhile h3

theorem mem_of_stripWs {s : List Char} {c : Char}
    (h : c ∈ stripWs s) : c ∈ s := by
  unfold stripWs at h
  have h1 := List.mem_reverse.mp h
  have h2 := mem_of_dropWhile h1
  have h3 := List.mem_reverse.mp h2
  exact mem_of_dropWhile h3

theorem splitOnPred_mem {p : Char → Bool} :
    ∀ {l piece : List Char}, piece ∈ splitOnPred p l →
      ∀ c ∈ piece, c ∈ l ∧ p c = false := by
  intro l
  induction l with
  | nil =>
    intro piece hp c hc
    simp only [splitOnPred, List.mem_singleton] at hp
    subst hp
    simp at hc
  | cons a rest ih =>
    intro piece hp c hc
    unfold splitOnPred at hp
    by_cases ha : p a = true
    · rw [if_pos ha] at hp
      rcases List.mem_cons.mp hp with heq | hmem
      · subst heq; simp at hc
      · have := ih hmem c hc
        exact ⟨List.mem_cons_of_mem a this.1, this.2⟩
    · rw [if_neg ha] at hp
      cases hsp : splitOnPred p rest with
      | nil =>
        rw [hsp] at hp
        simp only [List.mem_singleton] at hp
        subst hp
        simp only [List.mem_singleton] at hc
        subst hc
        exact ⟨List.mem_cons_self _ _, by simpa using ha⟩
      | cons hd tl =>
        rw [hsp] at hp
        rcases List.mem_cons.mp hp with heq | hmem
        · subst heq
          rcases List.mem_cons.mp hc with hceq | hcm
          · subst hceq
            exact ⟨List.mem_cons_self _ _, by simpa using ha⟩
          · have hh : hd ∈ splitOnPred p rest := by
              rw [hsp]; exact List.mem_cons_self _ _
            have := ih hh c hcm
            exact ⟨List.mem_cons_of_mem a this.1, this.2⟩
        · have ht : piece ∈ splitOnPred p rest := by
            rw [hsp]; exact List.mem_cons_of_mem hd hmem
          have := ih ht c hc
          exact ⟨List.mem_cons_of_mem a this.1, this.2⟩

theorem commaSplit_mem :
    ∀ {l piece : List Char}, piece ∈ commaSplit l →
      ∀ c ∈ piece, c ∈ l := by
  intro l
  induction l with
  | nil =>
    intro piece hp c hc
    simp only [commaSplit, List.mem_singleton] at hp
    subst hp; simp at hc
  | cons a rest ih =>
    intro piece hp c hc
    unfold commaSplit at hp
    cases hsp : commaSplit rest with
    | nil =>
      rw [hsp] at hp
      simp only [List.mem_singleton] at hp
      subst hp
      simp only [List.mem_singleton] at hc
      subst hc
      exact List.mem_cons_self _ _
    | cons hd tl =>
      rw [hsp] at hp
      dsimp only at hp
      have hhd : hd ∈ commaSplit rest := by
        rw [hsp]; exact List.mem_cons_self _ _
      by_cases hcond : (a == ',' && commaLookahead (rest.dropWhile (· == ' '))) = true
      · rw [if_pos hcond] at hp
        rcases List.mem_cons.mp hp with heq | hmem
        · subst heq; simp at hc
        · rcases List.mem_cons.mp hmem with heq2 | hmem2
          · subst heq2
            have : c ∈ hd := mem_of_dropWhile hc
            exact List.mem_cons_of_mem a (ih hhd c this)
          · have ht : piece ∈ commaSplit rest := by
              rw [hsp]; exact List.mem_cons_of_mem hd hmem2
            exact List.mem_cons_of_mem a (ih ht c hc)
      · rw [if_neg hcond] at hp
        rcases List.mem_cons.mp hp with heq | hmem
        · subst heq
          rcases List.mem_cons.mp hc with hceq | hcm
          · subst hceq; exact List.mem_cons_self _ _
          · exact List.mem_cons_of_mem a (ih hhd c hcm)
        · have ht : piece ∈ commaSplit rest := by
            rw [hsp]; exact List.mem_cons_of_mem hd hmem
          exact List.mem_cons_of_mem a (ih ht c hc)

theorem mem_of_dropLeadConn {s : List Char} {c : Char}
    (h : c ∈ dropLeadConn s) : c ∈ s := by
  unfold dropLeadConn at h
  cases hf : leadConnWords.find? (fun w =>
      prefixMatch true w s && boundaryB (s[w.length - 1]?) (s[w.length]?)) with
  | none => rw [hf] at h; exact h
  | some w =>
    rw [hf] at h
    exact List.drop_subset _ _ (mem_of_dropWhile h)

theorem extract_steps_clean (t : String) :
    ∀ s ∈ _extract_steps t, s ≠ "" ∧ ∀ c ∈ s.data, isDelim c = false := by
  intro s hs
  unfold _extract_steps at hs
  rw [List.mem_map] at hs
  obtain ⟨l, hl, hls⟩ := hs
  subst hls
  unfold extractStepsL at hl
  by_cases hcl : (collapseWs (summaryCutList t.data)).isEmpty = true
  · rw [if_pos hcl] at hl
    simp at hl
  · rw [if_neg hcl] at hl
    rw [List.mem_flatMap] at hl
    obtain ⟨frag, hfrag, hsub⟩ := hl
    by_cases hfe : (stripChars " -:،,".data frag).isEmpty = true
    · rw [if_pos hfe] at hsub; simp at hsub
    · rw [if_neg hfe] at hsub
      rw [List.mem_flatMap] at hsub
      obtain ⟨sub, hsubmem, hsub2⟩ := hsub
      by_cases hse : (stripChars " -:،,".data sub).isEmpty = true
      · rw [if_pos hse] at hsub2; simp at hsub2
      · rw [if_neg hse] at hsub2
        by_cases hde : (dropLeadConn (stripChars " -:،,".data sub)).isEmpty = true
        · rw [if_pos hde] at hsub2; simp at hsub2
        · rw [if_neg hde] at hsub2
          simp only [List.mem_singleton] at hsub2
          subst hsub2
          constructor
          · intro hcontra
            have hnil : (dropLeadConn (stripChars " -:،,".data sub)) = [] := by
              have := congrArg String.data hcontra
              simpa using this
            simp [hnil] at hde
          · intro c hc
            have h1 : c ∈ stripChars " -:،,".data sub := mem_of_dropLeadConn hc
            have h2 : c ∈ sub := mem_of_stripChars h1
            have h3 : c ∈ stripChars " -:،,".data frag := commaSplit_mem hsubmem c h2
            have h4 : c ∈ frag := mem_of_stripChars h3
            exact (splitOnPred_mem hfrag c h4).2

/-- C10: every extracted step is a non-empty string containing none of
the sentence-delimiter characters `.`, newline, carriage return, `؛`. -/
theorem C10_steps_delimiter_free (t : String) :
    ∀ s ∈ _extract_steps t, s ≠ "" ∧
      ∀ c ∈ s.data, c ≠ '.' ∧ c ≠ '\n' ∧ c ≠ '\r' ∧ c ≠ '؛' := by
  intro s hs
  obtain ⟨hne, hclean⟩ := extract_steps_clean t s hs
  refine ⟨hne, fun c hc => ?_⟩
  have := hclean c hc
  unfold isDelim at this
  simp only [Bool.or_eq_false_iff, beq_eq_false_iff_ne, ne_eq] at this
  exact ⟨this.1.1.1, this.1.1.2, this.1.2, this.2⟩

/-- Witness for C10 at a concrete input. -/
theorem C10_witness :
    "hello" ≠ "" ∧
      ∀ c ∈ "hello".data, c ≠ '.' ∧ c ≠ '\n' ∧ c ≠ '\r' ∧ c ≠ '؛' :=
  C10_steps_delimiter_free "hello" "hello" (by decide)

theorem wordsOf_cons_space {c : Char} {rest : List Char}
    (h : isPySpace c = true) : wordsOf (c :: rest) = wordsOf rest := by
  simp only [wordsOf, h, if_true]

theorem wordsOf_single_nonspace {c : Char} (h : isPySpace c = false) :
    wordsOf [c] = [[c]] := by
  simp only [wordsOf, h]
  simp

theorem wordsOf_cons2_space {c d : Char} {rest : List Char}
    (hc : isPySpace c = false) (hd : isPySpace d = true) :
    wordsOf (c :: d :: rest) = [c] :: wordsOf (d :: rest) := by
  conv_lhs => rw [wordsOf]
  rw [if_neg (by simp [hc]), if_pos hd]

theorem wordsOf_cons2_nonspace {c d : Char} {rest : List Char}
    (hc : isPySpace c = false) (hd : isPySpace d = false) :
    wordsOf (c :: d :: rest) =
      match wordsOf (d :: rest) with
      | [] => [[c]]
      | w :: t => (c :: w) :: t := by
  conv_lhs => rw [wordsOf]
  rw [if_neg (by simp [hc]), if_neg (by simp [hd])]

theorem wordsOf_cons_ne_nil {c : Char} {rest : List Char}
    (hc : isPySpace c = false) : wordsOf (c :: rest) ≠ [] := by
  cases rest with
  | nil => rw [wordsOf_single_nonspace hc]; simp
  | cons d rest2 =>
    by_cases hd : isPySpace d = true
    · rw [wordsOf_cons2_space hc hd]; simp
    · rw [wordsOf_cons2_nonspace hc (Bool.eq_false_iff.mpr hd)]
      cases wordsOf (d :: rest2) <;> simp

theorem wordsOf_sound :
    ∀ {l : List Char}, ∀ w ∈ wordsOf l,
      w ≠ [] ∧ ∀ c ∈ w, isPySpace c = false := by
  intro l
  induction l with
  | nil => intro w hw; simp [wordsOf] at hw
  | cons c rest ih =>
    intro w hw
    by_cases hc : isPySpace c = true
    · rw [wordsOf_cons_space hc] at hw
      exact ih w hw
    · replace hc := Bool.eq_false_iff.mpr hc
      cases rest with
      | nil =>
        rw [wordsOf_single_nonspace hc] at hw
        simp only [List.mem_singleton] at hw
        subst hw
        exact ⟨by simp, by intro x hx; simp at hx; subst hx; exact hc⟩
      | cons d rest2 =>
        by_cases hd : isPySpace d = true
        · rw [wordsOf_cons2_space hc hd] at hw
          rcases List.mem_cons.mp hw with heq | hmem
          · subst heq
            exact ⟨by simp, by intro x hx; simp at hx; subst hx; exact hc⟩
          · exact ih w hmem
        · replace hd := Bool.eq_false_iff.mpr hd
          rw [wordsOf_cons2_nonspace hc hd] at hw
          cases hws : wordsOf (d :: rest2) with
          | nil => exact absurd hws (wordsOf_cons_ne_nil hd)
          | cons w0 t0 =>
            rw [hws] at hw
            dsimp only at hw
            rcases List.mem_cons.mp hw with heq | hmem
            · subst heq
              have h0 : w0 ∈ wordsOf (d :: rest2) := by
                rw [hws]; exact List.mem_cons_self _ _
              obtain ⟨_, hchars⟩ := ih w0 h0
              refine ⟨by simp, ?_⟩
              intro x hx
              rcases List.mem_cons.mp hx with hxe | hxm
              · subst hxe; exact hc
              · exact hchars x hxm
            · have h0 : w ∈ wordsOf (d :: rest2) := by
                rw [hws]; exact List.mem_cons_of_mem w0 hmem
              exact ih w h0

theorem wordsOf_append_sep {d : Char} (hd : isPySpace d = true) :
    ∀ (a b : List Char), wordsOf (a ++ d :: b) = wordsOf a ++ wordsOf b := by
  intro a
  induction a with
  | nil =>
    intro b
    rw [List.nil_append, wordsOf_cons_space hd]
    rfl
  | cons c a' ih =>
    intro b
    by_cases hc : isPySpace c = true
    · rw [List.cons_append, wordsOf_cons_space hc, wordsOf_cons_space hc, ih]
    · replace hc := Bool.eq_false_iff.mpr hc
      cases a' with
      | nil =>
        rw [List.singleton_append, wordsOf_cons2_space hc hd,
            wordsOf_cons_space hd, wordsOf_single_nonspace hc]
        simp
      | cons e a'' =>
        by_cases he : isPySpace e = true
        · rw [List.cons_append, List.cons_append,
              wordsOf_cons2_space hc he, ← List.cons_append,
              wordsOf_cons2_space hc he, ih]
          simp
        · replace he := Bool.eq_false_iff.mpr he
          have hrw : (c :: e :: a'') ++ d :: b = c :: e :: (a'' ++ d :: b) := by simp
          rw [hrw, wordsOf_cons2_nonspace hc he, wordsOf_cons2_nonspace hc he]
          have hih : wordsOf (e :: (a'' ++ d :: b)) =
              wordsOf (e :: a'') ++ wordsOf b := by
            have := ih b
            simpa using this
          rw [hih]
          cases hws : wordsOf (e :: a'') with
          | nil => exact absurd hws (wordsOf_cons_ne_nil he)
          | cons w0 t0 => simp

theorem joinSpace_nil : joinSpace [] = [] := rfl

theorem joinSpace_singleton (w : List Char) : joinSpace [w] = w := by
  simp [joinSpace]

theorem joinSpace_cons (w w' : List Char) (ws : List (List Char)) :
    joinSpace (w :: w' :: ws) = w ++ ' ' :: joinSpace (w' :: ws) := by
  simp [joinSpace, List.intersperse]

theorem wordsOf_joinSpace :
    ∀ (ws : List (List Char)),
      (∀ w ∈ ws, w ≠ [] ∧ ∀ c ∈ w, isPySpace c = false) →
      wordsOf (joinSpace ws) = ws := by
  have single : ∀ (w : List Char), w ≠ [] → (∀ c ∈ w, isPySpace c = false) →
      wordsOf w = [w] := by
    intro w
    induction w with
    | nil => intro h; exact absurd rfl h
    | cons c w' ih =>
      intro _ hchars
      have hc : isPySpace c = false := hchars c (List.mem_cons_self _ _)
      cases w' with
      | nil => exact wordsOf_single_nonspace hc
      | cons d w'' =>
        have hd : isPySpace d = false :=
          hchars d (List.mem_cons_of_mem c (List.mem_cons_self _ _))
        rw [wordsOf_cons2_nonspace hc hd]
        have := ih (by simp) (fun x hx => hchars x (List.mem_cons_of_mem c hx))
        rw [this]
  intro ws
  induction ws with
  | nil => intro _; simp [joinSpace, wordsOf]
  | cons w ws' ih =>
    intro h
    cases ws' with
    | nil =>
      rw [joinSpace_singleton]
      exact single w (h w (List.mem_cons_self _ _)).1 (h w (List.mem_cons_self _ _)).2
    | cons w2 ws'' =>
      rw [joinSpace_cons, wordsOf_append_sep (by decide)]
      rw [single w (h w (List.mem_cons_self _ _)).1 (h w (List.mem_cons_self _ _)).2]
      rw [ih (fun x hx => h x (List.mem_cons_of_mem w hx))]
      simp

theorem joinSpace_append_singleton (cur : List (List Char)) (w : List Char) :
    (joinSpace (cur ++ [w])).length =
      (joinSpace cur).length + (if cur.isEmpty then 0 else 1) + w.length := by
  induction cur with
  | nil => simp [joinSpace]
  | cons c cur' ih =>
    cases cur' with
    | nil =>
      rw [List.cons_append, List.nil_append, joinSpace_cons, joinSpace_singleton,
          joinSpace_singleton]
      simp [Nat.add_comm, Nat.add_assoc, Nat.add_left_comm]
    | cons c2 cur'' =>
      have h1 : (c :: c2 :: cur'') ++ [w] = c :: ((c2 :: cur'') ++ [w]) := by simp
      rw [h1]
      have h2 : (c2 :: cur'') ++ [w] = c2 :: (cur'' ++ [w]) := by simp
      rw [h2, joinSpace_cons, ← h2, joinSpace_cons]
      simp only [List.length_append, List.length_cons, ih]
      simp [List.isEmpty]
      omega

theorem joinSpace_mem {ws : List (List Char)} {c : Char}
    (h : c ∈ joinSpace ws) : c = ' ' ∨ ∃ w ∈ ws, c ∈ w := by
  induction ws with
  | nil => simp [joinSpace] at h
  | cons w ws' ih =>
    cases ws' with
    | nil =>
      rw [joinSpace_singleton] at h
      exact Or.inr ⟨w, List.mem_cons_self _ _, h⟩
    | cons w2 ws'' =>
      rw [joinSpace_cons] at h
      rcases List.mem_append.mp h with h1 | h1
      · exact Or.inr ⟨w, List.mem_cons_self _ _, h1⟩
      · rcases List.mem_cons.mp h1 with h2 | h2
        · exact Or.inl h2
        · rcases ih h2 with h3 | ⟨w', hw', hc'⟩
          · exact Or.inl h3
          · exact Or.inr ⟨w', List.mem_cons_of_mem w hw', hc'⟩

theorem wrapLoop_spec (maxc : Nat) :
    ∀ (ws current : List (List Char)) (clen : Nat),
      (∀ w ∈ current, w ≠ [] ∧ ∀ c ∈ w, isPySpace c = false) →
      (∀ w ∈ ws, w ≠ [] ∧ ∀ c ∈ w, isPySpace c = false) →
      clen = (joinSpace current).length →
      (current = [] ∨ clen ≤ maxc ∨ ∃ w, current = [w]) →
      (∀ l ∈ wrapLoop maxc ws current clen,
        (l.length ≤ maxc ∨ ∃ w, (w ∈ current ∨ w ∈ ws) ∧ l = w) ∧
        ∀ c ∈ l, c ≠ '\n') ∧
      (wrapLoop maxc ws current clen).flatMap wordsOf = current ++ ws := by
  intro ws
  induction ws with
  | nil =>
    intro current clen hcur _ hlen hok
    unfold wrapLoop
    by_cases hce : current.isEmpty = true
    · rw [if_pos hce]
      have : current = [] := by simpa [List.isEmpty_iff] using hce
      subst this
      exact ⟨by intro l hl; simp at hl, by simp⟩
    · rw [if_neg hce]
      have hne : current ≠ [] := by simpa [List.isEmpty_iff] using hce
      constructor
      · intro l hl
        simp only [List.mem_singleton] at hl
        subst hl
        constructor
        · rcases hok with h | h | ⟨w, hw⟩
          · exact absurd h hne
          · exact Or.inl (hlen ▸ h)
          · subst hw
            rw [joinSpace_singleton]
            exact Or.inr ⟨w, Or.inl (List.mem_singleton.mpr rfl), rfl⟩
        · intro c hc
          rcases joinSpace_mem hc with h | ⟨w, hw, hcw⟩
          · subst h; decide
          · have := (hcur w hw).2 c hcw
            intro heq; subst heq; simp [isPySpace] at this
      · simp only [List.flatMap_cons, List.flatMap_nil, List.append_nil]
        rw [wordsOf_joinSpace current hcur]
  | cons w ws' ih =>
    intro current clen hcur hws hlen hok
    have hw : w ≠ [] ∧ ∀ c ∈ w, isPySpace c = false := hws w (List.mem_cons_self _ _)
    have hws' : ∀ x ∈ ws', x ≠ [] ∧ ∀ c ∈ x, isPySpace c = false :=
      fun x hx => hws x (List.mem_cons_of_mem w hx)
    unfold wrapLoop
    by_cases hover : maxc < clen + (if current.isEmpty then 0 else 1) + w.length
    · rw [if_pos hover]
      have hrec := ih [w] w.length
        (by intro x hx; simp only [List.mem_singleton] at hx; subst hx; exact hw)
        hws' (by rw [joinSpace_singleton]) (Or.inr (Or.inr ⟨w, rfl⟩))
      constructor
      · intro l hl
        rcases List.mem_cons.mp hl with heq | hmem
        · subst heq
          constructor
          · rcases hok with h | h | ⟨w0, hw0⟩
            · subst h; simp [joinSpace]
            · exact Or.inl (hlen ▸ h)
            · subst hw0
              rw [joinSpace_singleton]
              exact Or.inr ⟨w0, Or.inl (List.mem_singleton.mpr rfl), rfl⟩
          · intro c hc
            rcases joinSpace_mem hc with h | ⟨w0, hw0, hcw⟩
            · subst h; decide
            · have := (hcur w0 hw0).2 c hcw
              intro heq; subst heq; simp [isPySpace] at this
        · have := hrec.1 l hmem
          refine ⟨?_, this.2⟩
          rcases this.1 with h | ⟨w0, hw0, heq⟩
          · exact Or.inl h
          · rcases hw0 with h0 | h0
            · simp only [List.mem_singleton] at h0; subst h0
              exact Or.inr ⟨w0, Or.inr (List.mem_cons_self _ _), heq⟩
            · exact Or.inr ⟨w0, Or.inr (List.mem_cons_of_mem w h0), heq⟩
      · simp only [List.flatMap_cons]
        rw [wordsOf_joinSpace current hcur, hrec.2]
        simp
    · rw [if_neg hover]
      have hlen' : clen + (if current.isEmpty then 0 else 1) + w.length =
          (joinSpace (current ++ [w])).length := by
        rw [joinSpace_append_singleton, hlen]
      have hrec := ih (current ++ [w]) (clen + (if current.isEmpty then 0 else 1) + w.length)
        (by
          intro x hx
          rcases List.mem_append.mp hx with h | h
          · exact hcur x h
          · simp only [List.mem_singleton] at h; subst h; exact hw)
        hws' hlen'
        (Or.inr (Or.inl (Nat.le_of_not_lt hover)))
      constructor
      · intro l hl
        have := hrec.1 l hl
        refine ⟨?_, this.2⟩
        rcases this.1 with h | ⟨w0, hw0, heq⟩
        · exact Or.inl h
        · rcases hw0 with h0 | h0
          · rcases List.mem_append.mp h0 with h1 | h1
            · exact Or.inr ⟨w0, Or.inl h1, heq⟩
            · simp only [List.mem_singleton] at h1; subst h1
              exact Or.inr ⟨w0, Or.inr (List.mem_cons_self _ _), heq⟩
          · exact Or.inr ⟨w0, Or.inr (List.mem_cons_of_mem w h0), heq⟩
      · rw [hrec.2]
        simp

theorem splitOnPred_cons_pos {p : Char → Bool} {c : Char} {rest : List Char}
    (h : p c = true) :
    splitOnPred p (c :: rest) = [] :: splitOnPred p rest := by
  conv_lhs => rw [splitOnPred]
  rw [if_pos h]

theorem splitOnPred_cons_neg {p : Char → Bool} {c : Char} {rest : List Char}
    (h : p c = false) :
    splitOnPred p (c :: rest) =
      match splitOnPred p rest with
      | [] => [[c]]
      | hd :: t => (c :: hd) :: t := by
  conv_lhs => rw [splitOnPred]
  rw [if_neg (by simp [h])]

theorem splitOnPred_no_pred {p : Char → Bool} :
    ∀ {l : List Char}, (∀ c ∈ l, p c = false) → splitOnPred p l = [l] := by
  intro l
  induction l with
  | nil => intro _; rfl
  | cons c rest ih =>
    intro h
    have hc : p c = false := h c (List.mem_cons_self _ _)
    rw [splitOnPred_cons_neg hc, ih (fun x hx => h x (List.mem_cons_of_mem c hx))]

theorem splitOnPred_append_delim {p : Char → Bool} {d : Char}
    (hd : p d = true) :
    ∀ {l rest : List Char}, (∀ c ∈ l, p c = false) →
      splitOnPred p (l ++ d :: rest) = l :: splitOnPred p rest := by
  intro l
  induction l with
  | nil =>
    intro rest _
    rw [List.nil_append, splitOnPred_cons_pos hd]
  | cons c l' ih =>
    intro rest h
    have hc : p c = false := h c (List.mem_cons_self _ _)
    rw [List.cons_append, splitOnPred_cons_neg hc,
        ih (fun x hx => h x (List.mem_cons_of_mem c hx))]

theorem wordsOf_flatten_nl :
    ∀ (lines : List (List Char)),
      wordsOf ((List.intersperse ['\n'] lines).flatten) =
        lines.flatMap wordsOf := by
  intro lines
  induction lines with
  | nil => rfl
  | cons l ls ih =>
    cases ls with
    | nil => simp [List.intersperse]
    | cons l2 ls' =>
      have hflat : (List.intersperse ['\n'] (l :: l2 :: ls')).flatten =
          l ++ '\n' :: (List.intersperse ['\n'] (l2 :: ls')).flatten := by
        simp [List.intersperse]
      rw [hflat, wordsOf_append_sep (by decide), ih]
      simp

theorem linesOf_intercalate :
    ∀ (lines : List (List Char)), lines ≠ [] →
      (∀ l ∈ lines, ∀ c ∈ l, c ≠ '\n') →
      linesOf ((List.intersperse ['\n'] lines).flatten) = lines := by
  intro lines
  induction lines with
  | nil => intro h; exact absurd rfl h
  | cons l ls ih =>
    intro _ hch
    cases ls with
    | nil =>
      have hflat : (List.intersperse ['\n'] [l]).flatten = l := by simp
      rw [hflat]
      unfold linesOf
      exact splitOnPred_no_pred (fun c hc => by
        have := hch l (List.mem_cons_self _ _) c hc
        simpa using this)
    | cons l2 ls' =>
      have hflat : (List.intersperse ['\n'] (l :: l2 :: ls')).flatten =
          l ++ '\n' :: (List.intersperse ['\n'] (l2 :: ls')).flatten := by
        simp [List.intersperse]
      rw [hflat]
      unfold linesOf
      rw [splitOnPred_append_delim (by decide)
        (fun c hc => by
          have := hch l (List.mem_cons_self _ _) c hc
          simpa using this)]
      have := ih (by simp) (fun x hx => hch x (List.mem_cons_of_mem l hx))
      unfold linesOf at this
      rw [this]

/-- C6 (counterexample to the claim as stated): on a whitespace-only
input `_wrap_label` has no words to wrap and returns the text
unchanged, so 25 spaces yield one 25-character line that exceeds the
width 24 yet is not a single long word. -/
theorem C6_counterexample :
    ∃ l ∈ linesOf (_wrap_label ⟨List.replicate 25 ' '⟩).data,
      24 < l.length ∧ (wordsOf l).length ≠ 1 := by decide

/-- C6 (amended): for every input with at least one word, every line of
`_wrap_label`'s output has length at most 24 or is one of the input's
words kept unbroken on its own line; and for every input the
whitespace-separated words of the output equal those of the input, in
order. -/
theorem C6_label_wrapping (t : String) :
    (wordsOf t.data ≠ [] →
      ∀ l ∈ linesOf (_wrap_label t).data,
        l.length ≤ 24 ∨ ∃ w ∈ wordsOf t.data, l = w) ∧
    wordsOf (_wrap_label t).data = wordsOf t.data := by
  show (wordsOf t.data ≠ [] →
      ∀ l ∈ linesOf (wrapLabelL 24 t.data), _) ∧
    wordsOf (wrapLabelL 24 t.data) = wordsOf t.data
  unfold wrapLabelL
  by_cases hws : (wordsOf t.data).isEmpty = true
  · rw [if_pos hws]
    have hnil : wordsOf t.data = [] := by simpa [List.isEmpty_iff] using hws
    exact ⟨fun h => absurd hnil h, by rw [hnil]⟩
  · rw [if_neg hws]
    have hne : wordsOf t.data ≠ [] := by simpa [List.isEmpty_iff] using hws
    have spec := wrapLoop_spec 24 (wordsOf t.data) [] 0
      (by intro w hw; simp at hw)
      (fun w hw => wordsOf_sound w hw) rfl (Or.inl rfl)
    have hlines_ne : wrapLoop 24 (wordsOf t.data) [] 0 ≠ [] := by
      intro hcontra
      have := spec.2
      rw [hcontra] at this
      simp only [List.flatMap_nil, List.nil_append] at this
      exact hne this.symm
    constructor
    · intro _ l hl
      have hlin : linesOf ((List.intersperse ['\n']
          (wrapLoop 24 (wordsOf t.data) [] 0)).flatten) =
          wrapLoop 24 (wordsOf t.data) [] 0 :=
        linesOf_intercalate _ hlines_ne (fun x hx => (spec.1 x hx).2)
      rw [hlin] at hl
      rcases (spec.1 l hl).1 with h | ⟨w, hw, heq⟩
      · exact Or.inl h
      · rcases hw with h0 | h0
        · simp at h0
        · exact Or.inr ⟨w, h0, heq⟩
    · rw [wordsOf_flatten_nl, spec.2]
      simp

/-- Witness for the amended C6 at a concrete input. -/
theorem C6_witness :
    (∀ l ∈ linesOf (_wrap_label "this is a moderately long label that wraps").data,
      l.length ≤ 24 ∨
        ∃ w ∈ wordsOf "this is a moderately long label that wraps".data, l = w) ∧
    wordsOf (_wrap_label "this is a moderately long label that wraps").data =
      wordsOf "this is a moderately long label that wraps".data :=
  ⟨(C6_label_wrapping _).1 (by decide), (C6_label_wrapping _).2⟩

theorem mem_summaryCutList {l : List Char} {c : Char}
    (h : c ∈ summaryCutList l) : c ∈ l := by
  induction l with
  | nil => simp [summaryCutList] at h
  | cons a rest ih =>
    unfold summaryCutList at h
    by_cases hm : summaryMatchAt (a :: rest) = true
    · rw [if_pos hm] at h; simp at h
    · rw [if_neg hm] at h
      rcases List.mem_cons.mp h with heq | hmem
      · subst heq; exact List.mem_cons_self _ _
      · exact List.mem_cons_of_mem a (ih hmem)

theorem stripWs_all_space {l : List Char}
    (h : ∀ c ∈ l, isPySpace c = true) : stripWs l = [] := by
  unfold stripWs
  have h1 : l.dropWhile isPySpace = [] := by
    rw [List.dropWhile_eq_nil_iff]
    exact fun a ha => h a ha
  rw [h1]
  rfl

theorem extract_empty_of_ws {t : String}
    (h : ∀ c ∈ t.data, isPySpace c = true) : _extract_steps t = [] := by
  unfold _extract_steps extractStepsL
  have hcut : ∀ c ∈ summaryCutList t.data, isPySpace c = true :=
    fun c hc => h c (mem_summaryCutList hc)
  have hstrip : stripWs (summaryCutList t.data) = [] := stripWs_all_space hcut
  have hcl : collapseWs (summaryCutList t.data) = [] := by
    unfold collapseWs
    rw [hstrip]
    rfl
  rw [hcl]
  rfl

theorem extract_empty_of_summary {t : String}
    (h : summaryMatchAt t.data = true) : _extract_steps t = [] := by
  have hcut : summaryCutList t.data = [] := by
    cases hd : t.data with
    | nil => rw [hd] at h; exact absurd h (by decide)
    | cons c rest =>
      unfold summaryCutList
      rw [if_pos (hd ▸ h)]
  unfold _extract_steps extractStepsL
  rw [hcut]
  rfl

theorem convert_error_of_no_steps {t : String}
    (h : _extract_steps t = []) :
    convert_text_to_bpmn t = .error noStepsMsg := by
  unfold convert_text_to_bpmn convertGraph
  rw [h]
  rfl

/-- C1: for whitespace-only input, and for input that is entirely a
trailing-summary phrase (the fixed `در کل، فرایند شامل …` pattern
matching at the start; its trailing `.*` with DOTALL swallows the
rest), `_extract_steps` returns the empty list and
`convert_text_to_bpmn` fails with the fixed Persian message instead of
returning an XML string — and that message on empty extraction is the
only failure `convert_text_to_bpmn` ever produces. -/
theorem C1_no_steps_error :
    (∀ t : String,
      ((∀ c ∈ t.data, isPySpace c = true) ∨ summaryMatchAt t.data = true) →
      _extract_steps t = [] ∧ convert_text_to_bpmn t = .error noStepsMsg) ∧
    (∀ (t e : String), convert_text_to_bpmn t = .error e →
      e = noStepsMsg ∧ _extract_steps t = []) := by
  constructor
  · intro t h
    have hsteps : _extract_steps t = [] := by
      rcases h with h | h
      · exact extract_empty_of_ws h
      · exact extract_empty_of_summary h
    exact ⟨hsteps, convert_error_of_no_steps hsteps⟩
  · intro t e h
    unfold convert_text_to_bpmn convertGraph at h
    by_cases hs : (_extract_steps t).isEmpty = true
    · rw [if_pos hs] at h
      have he : e = noStepsMsg := by
        have := h.symm
        simpa [Except.map] using this
      exact ⟨he, List.isEmpty_iff.mp hs⟩
    · rw [if_neg hs] at h
      exfalso
      cases hb : _detect_branch t with
      | some b => rw [hb] at h; simp [Except.map] at h
      | none =>
        rw [hb] at h
        cases hm : _detect_multi_branch t with
        | some mb => rw [hm] at h; simp [Except.map] at h
        | none => rw [hm] at h; simp [Except.map] at h

/-- Witness for C1: a whitespace-only input and a pure
trailing-summary input. -/
theorem C1_witness :
    (_extract_steps "   " = [] ∧
      convert_text_to_bpmn "   " = .error noStepsMsg) ∧
    (noStepsMsg = noStepsMsg ∧
      _extract_steps "در کل، فرایند شامل چند مرحله است" = []) :=
  ⟨C1_no_steps_error.1 "   " (Or.inl (by decide)),
   C1_no_steps_error.2 "در کل، فرایند شامل چند مرحله است" noStepsMsg
     (convert_error_of_no_steps (extract_empty_of_summary (by decide)))⟩

/-- C9: the transform is a pure function of its input — equal inputs
give the identical result (the identical XML string or the identical
failure).  The only mutable state of the source, the `flow_index`
counter closed over by `add_flow`, is local to one invocation and is
modelled by the positional numbering of `numberFlows`; nothing outside
the invocation is read or written. -/
theorem C9_deterministic (s t : String) (h : s = t) :
    convert_text_to_bpmn s = convert_text_to_bpmn t := by
  rw [h]

/-- Witness for C9 at a concrete input. -/
theorem C9_witness :
    convert_text_to_bpmn "سلام" = convert_text_to_bpmn "سلام" :=
  C9_deterministic "سلام" "سلام" rfl

theorem natDigitsRev_eq_digits :
    ∀ (fuel n : Nat), n < fuel → natDigitsRev fuel n = Nat.digits 10 n := by
  intro fuel
  induction fuel with
  | zero => intro n h; omega
  | succ f ih =>
    intro n h
    unfold natDigitsRev
    by_cases hn : n = 0
    · rw [if_pos hn]; subst hn; simp
    · rw [if_neg hn]
      rw [Nat.digits_def' (by norm_num : (1 : Nat) < 10) (Nat.pos_of_ne_zero hn)]
      have h1 : n / 10 < n := Nat.div_lt_self (Nat.pos_of_ne_zero hn) (by norm_num)
      rw [ih (n / 10) (by omega)]

theorem digitChar_inj_lt {a b : Nat} (ha : a < 10) (hb : b < 10)
    (h : Nat.digitChar a = Nat.digitChar b) : a = b := by
  interval_cases a <;> interval_cases b <;> revert h <;> decide

theorem digitChar_isDigit {d : Nat} (h : d < 10) :
    (Nat.digitChar d).isDigit = true := by
  interval_cases d <;> decide

theorem map_digitChar_inj :
    ∀ {l1 l2 : List Nat}, (∀ d ∈ l1, d < 10) → (∀ d ∈ l2, d < 10) →
      l1.map Nat.digitChar = l2.map Nat.digitChar → l1 = l2 := by
  intro l1
  induction l1 with
  | nil =>
    intro l2 _ _ h
    cases l2 with
    | nil => rfl
    | cons b t => simp at h
  | cons a t1 ih =>
    intro l2 h1 h2 h
    cases l2 with
    | nil => simp at h
    | cons b t2 =>
      simp only [List.map_cons, List.cons.injEq] at h
      have hab : a = b :=
        digitChar_inj_lt (h1 a (List.mem_cons_self _ _))
          (h2 b (List.mem_cons_self _ _)) h.1
      have ht : t1 = t2 :=
        ih (fun d hd => h1 d (List.mem_cons_of_mem a hd))
          (fun d hd => h2 d (List.mem_cons_of_mem b hd)) h.2
      rw [hab, ht]

theorem natDec_data (n : Nat) (hn : n ≠ 0) :
    (natDec n).data = (Nat.digits 10 n).reverse.map Nat.digitChar := by
  unfold natDec
  rw [if_neg hn, natDigitsRev_eq_digits (n + 1) n (by omega)]

theorem natDec_isDigit : ∀ {n : Nat}, ∀ c ∈ (natDec n).data, c.isDigit = true := by
  intro n c hc
  by_cases hn : n = 0
  · subst hn
    simp only [natDec, if_pos rfl] at hc
    have : c = '0' := by simpa using hc
    subst this; decide
  · rw [natDec_data n hn] at hc
    rw [List.mem_map] at hc
    obtain ⟨d, hd, hdc⟩ := hc
    have hd10 : d < 10 :=
      Nat.digits_lt_base (by norm_num) (List.mem_reverse.mp hd)
    rw [← hdc]
    exact digitChar_isDigit hd10

theorem natDec_ne_nil (n : Nat) : (natDec n).data ≠ [] := by
  by_cases hn : n = 0
  · subst hn; simp [natDec]
  · rw [natDec_data n hn]
    have hne : Nat.digits 10 n ≠ [] := Nat.digits_ne_nil_iff_ne_zero.mpr hn
    simp [hne]

theorem natDec_inj : ∀ {a b : Nat}, natDec a = natDec b → a = b := by
  have main : ∀ {a b : Nat}, a ≠ 0 → b ≠ 0 → natDec a = natDec b → a = b := by
    intro a b ha hb h
    have hd := congrArg String.data h
    rw [natDec_data a ha, natDec_data b hb] at hd
    have hrev : (Nat.digits 10 a).reverse = (Nat.digits 10 b).reverse :=
      map_digitChar_inj
        (fun d hdm => Nat.digits_lt_base (by norm_num) (List.mem_reverse.mp hdm))
        (fun d hdm => Nat.digits_lt_base (by norm_num) (List.mem_reverse.mp hdm))
        hd
    have hdig : Nat.digits 10 a = Nat.digits 10 b :=
      List.reverse_injective hrev
    calc a = Nat.ofDigits 10 (Nat.digits 10 a) := (Nat.ofDigits_digits 10 a).symm
      _ = Nat.ofDigits 10 (Nat.digits 10 b) := by rw [hdig]
      _ = b := Nat.ofDigits_digits 10 b
  have zero_case : ∀ {b : Nat}, natDec 0 = natDec b → b = 0 := by
    intro b h
    by_contra hb
    have hd := congrArg String.data h
    rw [natDec_data b hb] at hd
    simp only [natDec, if_pos rfl] at hd
    have h0 : (Nat.digits 10 b).reverse.map Nat.digitChar = ['0'] := hd.symm
    cases hrev : (Nat.digits 10 b).reverse with
    | nil => rw [hrev] at h0; simp at h0
    | cons d t =>
      rw [hrev] at h0
      simp only [List.map_cons, List.cons.injEq] at h0
      have hd10 : d < 10 := by
        have : d ∈ (Nat.digits 10 b).reverse := by rw [hrev]; exact List.mem_cons_self _ _
        exact Nat.digits_lt_base (by norm_num) (List.mem_reverse.mp this)
      have hd0 : d = 0 := digitChar_inj_lt hd10 (by norm_num) (by rw [h0.1]; rfl)
      have ht : t = [] := by simpa using h0.2
      have hdig : Nat.digits 10 b = [0] := by
        have := congrArg List.reverse hrev
        simp only [List.reverse_reverse] at this
        rw [this, hd0, ht]
        rfl
      have : b = 0 := by
        have := Nat.ofDigits_digits 10 b
        rw [hdig] at this
        simpa [Nat.ofDigits] using this.symm
      exact hb this
  intro a b h
  by_cases ha : a = 0
  · subst ha; exact (zero_case h).symm
  · by_cases hb : b = 0
    · subst hb; exact absurd (zero_case h.symm) ha
    · exact main ha hb h

theorem appendStr_inj {p s t : String} (h : p ++ s = p ++ t) : s = t := by
  have hd := congrArg String.data h
  rw [String.data_append, String.data_append] at hd
  exact String.ext (List.append_cancel_left hd)

theorem activityId_inj {a b : Nat} (h : activityId a = activityId b) : a = b :=
  natDec_inj (appendStr_inj h)

theorem activityBId_inj {a b : Nat} (h : activityBId a = activityBId b) : a = b :=
  natDec_inj (appendStr_inj h)

theorem ne_of_data_ne {s t : String} (h : s.data ≠ t.data) : s ≠ t :=
  fun heq => h (congrArg String.data heq)

theorem natDec_head_digit (n : Nat) :
    ∃ c t, (natDec n).data = c :: t ∧ c.isDigit = true := by
  cases hd : (natDec n).data with
  | nil => exact absurd hd (natDec_ne_nil n)
  | cons c t =>
    refine ⟨c, t, rfl, ?_⟩
    exact natDec_isDigit c (by rw [hd]; exact List.mem_cons_self _ _)

theorem ne_cons_of_head {c d : Char} {t u : List Char} (h : c ≠ d) :
    c :: t ≠ d :: u := by
  intro he
  injection he with h1 _
  exact h h1

theorem activityId_data (n : Nat) :
    (activityId n).data = "Activity_".data ++ (natDec n).data := by
  unfold activityId
  rw [String.data_append]

theorem activityBId_data (n : Nat) :
    (activityBId n).data = "Activity_".data ++ ("B_".data ++ (natDec n).data) := by
  unfold activityBId
  rw [String.data_append]
  rfl

theorem natDec_data_ne_of_head {n : Nat} {c : Char} {t : List Char}
    (hc : c.isDigit = false) : (natDec n).data ≠ c :: t := by
  obtain ⟨d, u, hd, hdig⟩ := natDec_head_digit n
  rw [hd]
  intro h
  injection h with h1 _
  rw [h1, hc] at hdig
  exact Bool.false_ne_true hdig

theorem activityId_ne_start (n : Nat) : activityId n ≠ "StartEvent_1" := by
  apply ne_of_data_ne
  rw [activityId_data]
  exact ne_cons_of_head (by decide)

theorem activityId_ne_end (n : Nat) : activityId n ≠ "EndEvent_1" := by
  apply ne_of_data_ne
  rw [activityId_data]
  exact ne_cons_of_head (by decide)

theorem activityId_ne_split (n : Nat) : activityId n ≠ "Gateway_Split_1" := by
  apply ne_of_data_ne
  rw [activityId_data]
  exact ne_cons_of_head (by decide)

theorem activityId_ne_join (n : Nat) : activityId n ≠ "Gateway_Join_1" := by
  apply ne_of_data_ne
  rw [activityId_data]
  exact ne_cons_of_head (by decide)

theorem activityBId_ne_start (n : Nat) : activityBId n ≠ "StartEvent_1" := by
  apply ne_of_data_ne
  rw [activityBId_data]
  exact ne_cons_of_head (by decide)

theorem activityBId_ne_end (n : Nat) : activityBId n ≠ "EndEvent_1" := by
  apply ne_of_data_ne
  rw [activityBId_data]
  exact ne_cons_of_head (by decide)

theorem activityBId_ne_split (n : Nat) : activityBId n ≠ "Gateway_Split_1" := by
  apply ne_of_data_ne
  rw [activityBId_data]
  exact ne_cons_of_head (by decide)

theorem activityBId_ne_join (n : Nat) : activityBId n ≠ "Gateway_Join_1" := by
  apply ne_of_data_ne
  rw [activityBId_data]
  exact ne_cons_of_head (by decide)

theorem activityId_ne_yes (n : Nat) : activityId n ≠ "Activity_Yes_1" := by
  apply ne_of_data_ne
  rw [activityId_data]
  have h2 : "Activity_Yes_1".data = "Activity_".data ++ "Yes_1".data := rfl
  rw [h2]
  intro h
  exact natDec_data_ne_of_head (by decide) (List.append_cancel_left h)

theorem activityId_ne_no1 (n : Nat) : activityId n ≠ "Activity_No_1" := by
  apply ne_of_data_ne
  rw [activityId_data]
  have h2 : "Activity_No_1".data = "Activity_".data ++ "No_1".data := rfl
  rw [h2]
  intro h
  exact natDec_data_ne_of_head (by decide) (List.append_cancel_left h)

theorem activityId_ne_no2 (n : Nat) : activityId n ≠ "Activity_No_2" := by
  apply ne_of_data_ne
  rw [activityId_data]
  have h2 : "Activity_No_2".data = "Activity_".data ++ "No_2".data := rfl
  rw [h2]
  intro h
  exact natDec_data_ne_of_head (by decide) (List.append_cancel_left h)

theorem activityId_ne_B (n k : Nat) : activityId n ≠ activityBId k := by
  apply ne_of_data_ne
  rw [activityId_data, activityBId_data]
  intro h
  exact natDec_data_ne_of_head (by decide) (List.append_cancel_left h)

theorem activityBId_ne_yes (n : Nat) : activityBId n ≠ "Activity_Yes_1" := by
  apply ne_of_data_ne
  rw [activityBId_data]
  have h2 : "Activity_Yes_1".data = "Activity_".data ++ "Yes_1".data := rfl
  rw [h2]
  intro h
  have h3 := List.append_cancel_left h
  exact absurd h3 (by intro hx; injection hx with hx1 _; exact absurd hx1 (by decide))

theorem activityBId_ne_no1 (n : Nat) : activityBId n ≠ "Activity_No_1" := by
  apply ne_of_data_ne
  rw [activityBId_data]
  have h2 : "Activity_No_1".data = "Activity_".data ++ "No_1".data := rfl
  rw [h2]
  intro h
  have h3 := List.append_cancel_left h
  exact absurd h3 (by intro hx; injection hx with hx1 _; exact absurd hx1 (by decide))

theorem activityBId_ne_no2 (n : Nat) : activityBId n ≠ "Activity_No_2" := by
  apply ne_of_data_ne
  rw [activityBId_data]
  have h2 : "Activity_No_2".data = "Activity_".data ++ "No_2".data := rfl
  rw [h2]
  intro h
  have h3 := List.append_cancel_left h
  exact absurd h3 (by intro hx; injection hx with hx1 _; exact absurd hx1 (by decide))

/-! Chain (path) machinery shared by the linear and gateway graphs. -/

theorem numberFlows_pairs :
    ∀ (ps : List (String × String)) (k : Nat) (a b : String),
      (∃ e ∈ numberFlows ps k, e.src = a ∧ e.tgt = b) ↔ (a, b) ∈ ps := by
  intro ps
  induction ps with
  | nil => intro k a b; simp [numberFlows]
  | cons q rest ih =>
    intro k a b
    constructor
    · rintro ⟨e, he, hsrc, htgt⟩
      rcases List.mem_cons.mp he with heq | hmem
      · subst heq
        simp only [List.mem_cons]
        left
        cases q
        simp only at hsrc htgt
        rw [← hsrc, ← htgt]
      · have := (ih (k + 1) a b).mp ⟨e, hmem, hsrc, htgt⟩
        exact List.mem_cons_of_mem q this
    · intro h
      rcases List.mem_cons.mp h with heq | hmem
      · cases q with
        | mk qa qb =>
          obtain ⟨h1, h2⟩ := Prod.mk.injEq .. ▸ heq
          refine ⟨⟨flowId k, qa, qb⟩, List.mem_cons_self _ _, ?_, ?_⟩
          · simp [h1.symm]
          · simp [h2.symm]
      · obtain ⟨e, he, h1, h2⟩ := (ih (k + 1) a b).mpr hmem
        exact ⟨e, List.mem_cons_of_mem _ he, h1, h2⟩

theorem numberFlows_length :
    ∀ (ps : List (String × String)) (k : Nat),
      (numberFlows ps k).length = ps.length := by
  intro ps
  induction ps with
  | nil => intro k; rfl
  | cons q rest ih => intro k; cases q; simp [numberFlows, ih]

theorem chainPairs_length :
    ∀ (l : List String), (chainPairs l).length = l.length - 1 := by
  intro l
  induction l with
  | nil => rfl
  | cons a rest ih =>
    cases rest with
    | nil => rfl
    | cons b t => simp [chainPairs, ih]

theorem chainPairs_fst_mem :
    ∀ {l : List String} {a b : String}, (a, b) ∈ chainPairs l → a ∈ l := by
  intro l
  induction l with
  | nil => intro a b h; simp [chainPairs] at h
  | cons x rest ih =>
    intro a b h
    cases rest with
    | nil => simp [chainPairs] at h
    | cons y t =>
      rcases List.mem_cons.mp h with heq | hmem
      · injection heq with h1 _
        rw [← h1]; exact List.mem_cons_self _ _
      · exact List.mem_cons_of_mem x (ih hmem)

theorem chainPairs_snd_mem_tail :
    ∀ {x : String} {rest : List String} {a b : String},
      (a, b) ∈ chainPairs (x :: rest) → b ∈ rest := by
  intro x rest
  induction rest generalizing x with
  | nil => intro a b h; simp [chainPairs] at h
  | cons y t ih =>
    intro a b h
    rcases List.mem_cons.mp h with heq | hmem
    · injection heq with _ h2
      rw [← h2]; exact List.mem_cons_self _ _
    · exact List.mem_cons_of_mem y (ih hmem)

theorem chainPairs_head_src {x z : String} {rest : List String}
    (hx : x ∉ rest) (h : (x, z) ∈ chainPairs (x :: rest)) :
    rest.head? = some z := by
  cases rest with
  | nil => simp [chainPairs] at h
  | cons y t =>
    rcases List.mem_cons.mp h with heq | hmem
    · injection heq with _ h2
      rw [h2]
      rfl
    · exact absurd (chainPairs_fst_mem hmem) hx

theorem pred_of_mem_tail :
    ∀ {x : String} {rest : List String} {a : String}, a ∈ rest →
      ∃ w, (w, a) ∈ chainPairs (x :: rest) := by
  intro x rest
  induction rest generalizing x with
  | nil => intro a h; simp at h
  | cons b t ih =>
    intro a h
    rcases List.mem_cons.mp h with heq | hmem
    · subst heq
      exact ⟨x, List.mem_cons_self _ _⟩
    · obtain ⟨w, hw⟩ : ∃ w, (w, a) ∈ chainPairs (b :: t) := ih hmem
      exact ⟨w, List.mem_cons_of_mem _ hw⟩

theorem path_eq_of_chain :
    ∀ (ids : List String), ids.Nodup → ∀ (p : List String),
      p.head? = ids.head? → p.getLast? = ids.getLast? →
      (∀ q ∈ chainPairs p, q ∈ chainPairs ids) → p = ids := by
  intro ids
  induction ids with
  | nil =>
    intro _ p hh _ _
    simpa using List.head?_eq_none_iff.mp (by simpa using hh)
  | cons x rest ih =>
    intro hnd p hh hl hq
    have hx : x ∉ rest := (List.nodup_cons.mp hnd).1
    obtain ⟨p', rfl⟩ : ∃ p', p = x :: p' := by
      cases p with
      | nil => simp at hh
      | cons a p' =>
        have ha : a = x := by simpa using hh
        exact ⟨p', by rw [ha]⟩
    · cases rest with
      | nil =>
        cases p' with
        | nil => rfl
        | cons z p'' =>
          have : (x, z) ∈ chainPairs (x :: z :: p'') := List.mem_cons_self _ _
          have := hq _ this
          simp [chainPairs] at this
      | cons y rest' =>
        cases p' with
        | nil =>
          have hlast : (x :: y :: rest').getLast? = some x := by
            rw [← hl]; rfl
          rw [List.getLast?_cons_cons] at hlast
          have : x ∈ y :: rest' := List.mem_of_mem_getLast? hlast
          exact absurd this hx
        | cons z p'' =>
          have hfirst : (x, z) ∈ chainPairs (x :: y :: rest') :=
            hq _ (List.mem_cons_self _ _)
          have hz : z = y := by
            have := chainPairs_head_src hx hfirst
            simpa using this.symm
          subst hz
          have hxnotp' : x ∉ z :: p'' := by
            intro hmem
            rcases List.mem_cons.mp hmem with heq | hmem2
            · exact hx (heq ▸ List.mem_cons_self _ _)
            · obtain ⟨w, hw⟩ :=
                (pred_of_mem_tail hmem2 : ∃ w, (w, x) ∈ chainPairs (z :: p''))
              have hwp : (w, x) ∈ chainPairs (x :: z :: p'') :=
                List.mem_cons_of_mem _ hw
              have := hq _ hwp
              exact hx (chainPairs_snd_mem_tail this)
          have hsub : ∀ q ∈ chainPairs (z :: p''), q ∈ chainPairs (z :: rest') := by
            intro q hqm
            have hqp : q ∈ chainPairs (x :: z :: p'') := List.mem_cons_of_mem _ hqm
            have := hq _ hqp
            rcases List.mem_cons.mp this with heq | hmem
            · exfalso
              have hq1x : q.1 = x := by rw [heq]
              cases q with
              | mk qa qb =>
                have hq1 : qa ∈ z :: p'' := chainPairs_fst_mem hqm
                simp only at hq1x
                rw [hq1x] at hq1
                exact hxnotp' hq1
            · exact hmem
          rw [List.getLast?_cons_cons, List.getLast?_cons_cons] at hl
          have := ih (List.nodup_cons.mp hnd).2 (z :: p'') (by rfl) hl hsub
          rw [this]

theorem chainable_iff_pairs (g : BGraph) :
    ∀ (p : List String),
      Chainable g p ↔
        ∀ q ∈ chainPairs p, ∃ e ∈ g.edges, e.src = q.1 ∧ e.tgt = q.2 := by
  intro p
  induction p with
  | nil => simp [Chainable, chainPairs]
  | cons a rest ih =>
    cases rest with
    | nil => simp [Chainable, chainPairs]
    | cons b t =>
      constructor
      · rintro ⟨he, hch⟩ q hq
        rcases List.mem_cons.mp hq with heq | hmem
        · subst heq; exact he
        · exact (ih.mp hch) q hmem
      · intro h
        exact ⟨h (a, b) (List.mem_cons_self _ _),
               ih.mpr (fun q hq => h q (List.mem_cons_of_mem _ hq))⟩

theorem mkTasks_shape :
    ∀ (ls : List String) (i : Nat) (nd : BNode), nd ∈ mkTasks ls i →
      ∃ k, i ≤ k ∧ k < i + ls.length ∧ nd.ntype = "task" ∧
        nd.id = activityId k := by
  intro ls
  induction ls with
  | nil => intro i nd h; simp [mkTasks] at h
  | cons l ls' ih =>
    intro i nd h
    rcases List.mem_cons.mp h with heq | hmem
    · subst heq
      exact ⟨i, Nat.le_refl i, by simp, rfl, rfl⟩
    · obtain ⟨k, h1, h2, h3, h4⟩ := ih (i + 1) nd hmem
      exact ⟨k, by omega, by simp at h2 ⊢; omega, h3, h4⟩

theorem mkTasks_length :
    ∀ (ls : List String) (i : Nat), (mkTasks ls i).length = ls.length := by
  intro ls
  induction ls with
  | nil => intro i; rfl
  | cons l ls' ih => intro i; simp [mkTasks, ih]

theorem mkTasks_ids :
    ∀ (ls : List String) (i : Nat),
      (mkTasks ls i).map BNode.id =
        (List.range ls.length).map (fun j => activityId (i + j)) := by
  intro ls
  induction ls with
  | nil => intro i; rfl
  | cons l ls' ih =>
    intro i
    simp only [List.length_cons]
    rw [List.range_succ_eq_map]
    simp only [mkTasks, List.map_cons, List.map_map]
    have hf : ((fun j => activityId (i + j)) ∘ (· + 1)) =
        (fun j => activityId ((i + 1) + j)) := by
      funext j
      simp only [Function.comp]
      congr 1
      omega
    rw [hf, ← ih (i + 1)]
    simp

theorem mkTasks_ids_nodup :
    ∀ (ls : List String) (i : Nat), ((mkTasks ls i).map BNode.id).Nodup := by
  intro ls
  induction ls with
  | nil => intro i; simp [mkTasks]
  | cons l ls' ih =>
    intro i
    simp only [mkTasks, List.map_cons]
    rw [List.nodup_cons]
    constructor
    · intro hmem
      rw [List.mem_map] at hmem
      obtain ⟨nd, hnd, hid⟩ := hmem
      obtain ⟨k, h1, _, _, h4⟩ := mkTasks_shape ls' (i + 1) nd hnd
      rw [h4] at hid
      have := activityId_inj hid.symm
      omega
    · exact ih (i + 1)

theorem buildLinear_ids (steps : List String) :
    (buildLinear steps).nodes.map BNode.id = linearIds steps.length := by
  unfold buildLinear linearIds
  simp only [List.map_cons, List.map_append, List.map_cons, List.map_nil]
  rw [mkTasks_ids]
  have hlen : (steps.map _format_label_with_role).length = steps.length := by simp
  rw [hlen]
  have hf : (fun j => activityId (1 + j)) = (fun i => activityId (i + 1)) := by
    funext j
    congr 1
    omega
  rw [hf]

theorem buildLinear_edges (steps : List String) :
    (buildLinear steps).edges =
      numberFlows (chainPairs (linearIds steps.length)) 1 := by
  have h : (buildLinear steps).edges =
      numberFlows (chainPairs ((buildLinear steps).nodes.map BNode.id)) 1 := rfl
  rw [h, buildLinear_ids]

theorem linearIds_length (n : Nat) : (linearIds n).length = n + 2 := by
  simp [linearIds]

theorem linearIds_nodup (n : Nat) : (linearIds n).Nodup := by
  unfold linearIds
  rw [List.nodup_cons]
  constructor
  · intro hmem
    rcases List.mem_append.mp hmem with h | h
    · rw [List.mem_map] at h
      obtain ⟨j, _, hj⟩ := h
      exact activityId_ne_start (j + 1) hj
    · simp at h
  · rw [List.nodup_append]
    refine ⟨?_, by simp, ?_⟩
    · apply List.Nodup.map
      · intro a b hab
        have := activityId_inj hab
        omega
      · exact List.nodup_range n
    · intro a ha hb
      rw [List.mem_map] at ha
      obtain ⟨j, _, hj⟩ := ha
      simp only [List.mem_singleton] at hb
      rw [← hj] at hb
      exact activityId_ne_end (j + 1) hb

theorem linearIds_last (n : Nat) :
    (linearIds n).getLast? = some "EndEvent_1" := by
  unfold linearIds
  rw [← List.cons_append]
  exact List.getLast?_concat _

/-- C2: with no branch and no multi-branch detected and at least one
step extracted, the produced graph is the linear chain: `n + 2` nodes
(`StartEvent_1`, `Activity_1 … Activity_n` in step order,
`EndEvent_1`), `n + 1` flows chaining consecutive nodes, and exactly
one path from start to end. -/
theorem C2_linear_graph (t : String) (g : BGraph)
    (hb : _detect_branch t = none) (hm : _detect_multi_branch t = none)
    (hn : 1 ≤ (_extract_steps t).length)
    (hg : convertGraph t = .ok g) :
    g.nodes.length = (_extract_steps t).length + 2 ∧
    g.edges.length = (_extract_steps t).length + 1 ∧
    g.nodes.map BNode.id = linearIds (_extract_steps t).length ∧
    g.edges = numberFlows (chainPairs (linearIds (_extract_steps t).length)) 1 ∧
    ∃! p, IsPathFromTo g "StartEvent_1" "EndEvent_1" p := by
  have hge : g = buildLinear (_extract_steps t) := by
    unfold convertGraph at hg
    rw [if_neg (by
      intro hcontra
      rw [List.isEmpty_iff] at hcontra
      rw [hcontra] at hn
      simp at hn)] at hg
    rw [hb, hm] at hg
    exact (Except.ok.injEq .. ▸ hg).symm
  subst hge
  set n := (_extract_steps t).length with hn_def
  have hids := buildLinear_ids (_extract_steps t)
  have hedges := buildLinear_edges (_extract_steps t)
  refine ⟨?_, ?_, hids, hedges, ?_⟩
  · show (buildLinear (_extract_steps t)).nodes.length = n + 2
    have := congrArg List.length hids
    simpa [linearIds_length] using this
  · rw [hedges, numberFlows_length, chainPairs_length, linearIds_length]
    omega
  · have hnodup := linearIds_nodup n
    have pair_iff : ∀ (a b : String),
        (∃ e ∈ (buildLinear (_extract_steps t)).edges,
          e.src = a ∧ e.tgt = b) ↔ (a, b) ∈ chainPairs (linearIds n) := by
      intro a b
      rw [hedges]
      exact numberFlows_pairs _ 1 a b
    refine ⟨linearIds n, ⟨rfl, linearIds_last n, ?_⟩, ?_⟩
    · rw [chainable_iff_pairs]
      intro q hq
      cases q with
      | mk qa qb => exact (pair_iff qa qb).mpr hq
    · rintro p ⟨hph, hpl, hpc⟩
      apply path_eq_of_chain (linearIds n) hnodup p
      · rw [hph]; rfl
      · rw [hpl, linearIds_last]
      · intro q hq
        have := (chainable_iff_pairs _ p).mp hpc q hq
        cases q with
        | mk qa qb => exact (pair_iff qa qb).mp this

theorem numberFlows_mem_pair :
    ∀ {ps : List (String × String)} {k : Nat} {e : BEdge},
      e ∈ numberFlows ps k → (e.src, e.tgt) ∈ ps := by
  intro ps
  induction ps with
  | nil => intro k e h; simp [numberFlows] at h
  | cons q rest ih =>
    intro k e h
    cases q with
    | mk a b =>
      rcases List.mem_cons.mp h with heq | hmem
      · subst heq; exact List.mem_cons_self _ _
      · exact List.mem_cons_of_mem _ (ih hmem)

theorem chainPairs_snd_mem :
    ∀ {l : List String} {a b : String}, (a, b) ∈ chainPairs l → b ∈ l := by
  intro l a b h
  cases l with
  | nil => simp [chainPairs] at h
  | cons x rest => exact List.mem_cons_of_mem x (chainPairs_snd_mem_tail h)

theorem mem_head_or_snd :
    ∀ {l : List String} {a : String}, a ∈ l →
      l.head? = some a ∨ ∃ q ∈ chainPairs l, q.2 = a := by
  intro l
  induction l with
  | nil => intro a h; simp at h
  | cons x rest ih =>
    intro a h
    rcases List.mem_cons.mp h with heq | hmem
    · subst heq; exact Or.inl rfl
    · cases rest with
      | nil => simp at hmem
      | cons y t =>
        rcases ih hmem with hh | ⟨q, hq, hq2⟩
        · have : y = a := by simpa using hh
          subst this
          exact Or.inr ⟨(x, y), List.mem_cons_self _ _, rfl⟩
        · exact Or.inr ⟨q, List.mem_cons_of_mem _ hq, hq2⟩

theorem mem_last_or_fst :
    ∀ {l : List String} {a : String}, a ∈ l →
      l.getLast? = some a ∨ ∃ q ∈ chainPairs l, q.1 = a := by
  intro l
  induction l with
  | nil => intro a h; simp at h
  | cons x rest ih =>
    intro a h
    rcases List.mem_cons.mp h with heq | hmem
    · subst heq
      cases rest with
      | nil => exact Or.inl rfl
      | cons y t => exact Or.inr ⟨(a, y), List.mem_cons_self _ _, rfl⟩
    · cases rest with
      | nil => simp at hmem
      | cons y t =>
        rcases ih hmem with hh | ⟨q, hq, hq1⟩
        · rw [List.getLast?_cons_cons]
          exact Or.inl hh
        · exact Or.inr ⟨q, List.mem_cons_of_mem _ hq, hq1⟩

theorem armChain_ids :
    ∀ (a : Arm) (c r : Nat), (armChain a c r).map BNode.id = a.map Prod.fst := by
  intro a
  induction a with
  | nil => intro c r; rfl
  | cons p rest ih =>
    intro c r
    cases p
    simp [armChain, ih]

theorem armChain_types :
    ∀ (a : Arm) (c r : Nat) (nd : BNode), nd ∈ armChain a c r →
      nd.ntype = "task" := by
  intro a
  induction a with
  | nil => intro c r nd h; simp [armChain] at h
  | cons p rest ih =>
    intro c r nd h
    cases p with
    | mk i l =>
      rcases List.mem_cons.mp h with heq | hmem
      · subst heq; rfl
      · exact ih (c + 1) r nd hmem

theorem mkArmNodes_ids :
    ∀ (arms : List Arm) (r c : Nat),
      (mkArmNodes arms r c).map BNode.id =
        arms.flatMap (fun a => a.map Prod.fst) := by
  intro arms
  induction arms with
  | nil => intro r c; rfl
  | cons a rest ih =>
    intro r c
    simp [mkArmNodes, armChain_ids, ih]

theorem mkArmNodes_types :
    ∀ (arms : List Arm) (r c : Nat) (nd : BNode), nd ∈ mkArmNodes arms r c →
      nd.ntype = "task" := by
  intro arms
  induction arms with
  | nil => intro r c nd h; simp [mkArmNodes] at h
  | cons a rest ih =>
    intro r c nd h
    rcases List.mem_append.mp h with hm | hm
    · exact armChain_types a c r nd hm
    · exact ih (r + 1) c nd hm

theorem armFirstIds_subset {arms : List Arm} {i : String}
    (h : i ∈ armFirstIds arms) :
    i ∈ arms.flatMap (fun a => a.map Prod.fst) := by
  unfold armFirstIds at h
  rw [List.mem_filterMap] at h
  obtain ⟨a, ha, hi⟩ := h
  cases hh : a.head? with
  | none => rw [hh] at hi; simp at hi
  | some p =>
    rw [hh] at hi
    have hi2 : p.1 = i := by simpa using hi
    rw [List.mem_flatMap]
    refine ⟨a, ha, ?_⟩
    rw [← hi2]
    exact List.mem_map_of_mem _ (List.mem_of_mem_head? hh)

theorem armLastIds_subset {arms : List Arm} {i : String}
    (h : i ∈ armLastIds arms) :
    i ∈ arms.flatMap (fun a => a.map Prod.fst) := by
  unfold armLastIds at h
  rw [List.mem_filterMap] at h
  obtain ⟨a, ha, hi⟩ := h
  cases hh : a.getLast? with
  | none => rw [hh] at hi; simp at hi
  | some p =>
    rw [hh] at hi
    have hi2 : p.1 = i := by simpa using hi
    rw [List.mem_flatMap]
    refine ⟨a, ha, ?_⟩
    rw [← hi2]
    exact List.mem_map_of_mem _ (List.mem_of_mem_getLast? hh)

theorem armInternalPairs_mem {arms : List Arm} {q : String × String}
    (h : q ∈ armInternalPairs arms) :
    q.1 ∈ arms.flatMap (fun a => a.map Prod.fst) ∧
    q.2 ∈ arms.flatMap (fun a => a.map Prod.fst) := by
  unfold armInternalPairs at h
  rw [List.mem_flatMap] at h
  obtain ⟨a, ha, hq⟩ := h
  cases q with
  | mk qa qb =>
    constructor
    · rw [List.mem_flatMap]
      exact ⟨a, ha, chainPairs_fst_mem hq⟩
    · rw [List.mem_flatMap]
      exact ⟨a, ha, chainPairs_snd_mem hq⟩

theorem armFirstIds_of_mem {arms : List Arm} {a : Arm} (ha : a ∈ arms)
    {p : String × String} (hp : a.head? = some p) :
    p.1 ∈ armFirstIds arms :=
  List.mem_filterMap.mpr ⟨a, ha, by rw [hp]; rfl⟩

theorem armLastIds_of_mem {arms : List Arm} {a : Arm} (ha : a ∈ arms)
    {p : String × String} (hp : a.getLast? = some p) :
    p.1 ∈ armLastIds arms :=
  List.mem_filterMap.mpr ⟨a, ha, by rw [hp]; rfl⟩

theorem arm_incoming {arms : List Arm} {a : Arm} (ha : a ∈ arms)
    {i : String} (hi : i ∈ a.map Prod.fst) :
    i ∈ armFirstIds arms ∨ ∃ q ∈ armInternalPairs arms, q.2 = i := by
  rcases mem_head_or_snd hi with hh | ⟨q, hq, hq2⟩
  · left
    rw [List.head?_map] at hh
    cases hp : a.head? with
    | none => rw [hp] at hh; simp at hh
    | some p =>
      rw [hp] at hh
      have : p.1 = i := by simpa using hh
      rw [← this]
      exact armFirstIds_of_mem ha hp
  · right
    refine ⟨q, ?_, hq2⟩
    unfold armInternalPairs
    rw [List.mem_flatMap]
    exact ⟨a, ha, hq⟩

theorem arm_outgoing {arms : List Arm} {a : Arm} (ha : a ∈ arms)
    {i : String} (hi : i ∈ a.map Prod.fst) :
    i ∈ armLastIds arms ∨ ∃ q ∈ armInternalPairs arms, q.1 = i := by
  rcases mem_last_or_fst hi with hh | ⟨q, hq, hq1⟩
  · left
    rw [List.getLast?_map] at hh
    cases hp : a.getLast? with
    | none => rw [hp] at hh; simp at hh
    | some p =>
      rw [hp] at hh
      have : p.1 = i := by simpa using hh
      rw [← this]
      exact armLastIds_of_mem ha hp
  · right
    refine ⟨q, ?_, hq1⟩
    unfold armInternalPairs
    rw [List.mem_flatMap]
    exact ⟨a, ha, hq⟩

theorem gatewayNodes_ids (t q : String) (arms : List Arm) :
    (gatewayNodes t q arms).map BNode.id =
      "StartEvent_1" ::
        ((gatewayPreNodes t).map BNode.id ++ ["Gateway_Split_1"] ++
         arms.flatMap (fun a => a.map Prod.fst) ++
         ["Gateway_Join_1", "EndEvent_1"]) := by
  unfold gatewayNodes gatewayArmNodes
  simp only [List.map_cons, List.map_append, mkArmNodes_ids]
  rfl

theorem gatewayPreIds_shape {t : String} {i : String}
    (h : i ∈ (gatewayPreNodes t).map BNode.id) : ∃ k, i = activityId k := by
  rw [List.mem_map] at h
  obtain ⟨nd, hnd, hid⟩ := h
  obtain ⟨k, _, _, _, h4⟩ := mkTasks_shape _ _ nd hnd
  exact ⟨k, by rw [← hid, h4]⟩

theorem edge_tgt_of_pair {ps : List (String × String)} {k : Nat} {a b : String}
    (h : (a, b) ∈ ps) : ∃ e ∈ numberFlows ps k, e.tgt = b := by
  obtain ⟨e, he, _, h2⟩ := (numberFlows_pairs ps k a b).mpr h
  exact ⟨e, he, h2⟩

theorem edge_src_of_pair {ps : List (String × String)} {k : Nat} {a b : String}
    (h : (a, b) ∈ ps) : ∃ e ∈ numberFlows ps k, e.src = a := by
  obtain ⟨e, he, h1, _⟩ := (numberFlows_pairs ps k a b).mpr h
  exact ⟨e, he, h1⟩

theorem gateway_ids_nodup (t q : String) (arms : List Arm)
    (h3 : (arms.flatMap (fun a => a.map Prod.fst)).Nodup)
    (h4 : ∀ i ∈ arms.flatMap (fun a => a.map Prod.fst),
       i ≠ "StartEvent_1" ∧ i ≠ "EndEvent_1" ∧ i ≠ "Gateway_Split_1" ∧
       i ≠ "Gateway_Join_1" ∧ ∀ k, i ≠ activityId k) :
    ((gatewayNodes t q arms).map BNode.id).Nodup := by
  rw [gatewayNodes_ids]
  set pre := (gatewayPreNodes t).map BNode.id with hpre
  set armIds := arms.flatMap (fun a => a.map Prod.fst) with harm
  rw [List.nodup_cons]
  constructor
  · intro hmem
    rcases List.mem_append.mp hmem with hmem | hmem
    · rcases List.mem_append.mp hmem with hmem | hmem
      · rcases List.mem_append.mp hmem with hmem | hmem
        · obtain ⟨k, hk⟩ := gatewayPreIds_shape hmem
          exact activityId_ne_start k hk.symm
        · simp at hmem
      · exact (h4 _ hmem).1 rfl
    · simp at hmem
  · rw [List.nodup_append]
    refine ⟨?_, by decide, ?_⟩
    · rw [List.nodup_append]
      refine ⟨?_, h3, ?_⟩
      · rw [List.nodup_append]
        refine ⟨mkTasks_ids_nodup _ 1, by decide, ?_⟩
        · intro a ha hb
          simp only [List.mem_singleton] at hb
          obtain ⟨k, hk⟩ := gatewayPreIds_shape ha
          subst hb
          exact activityId_ne_split k hk.symm
      · intro a ha hb
        rcases List.mem_append.mp ha with ha | ha
        · obtain ⟨k, hk⟩ := gatewayPreIds_shape ha
          subst hk
          exact (h4 _ hb).2.2.2.2 k rfl
        · simp only [List.mem_singleton] at ha
          subst ha
          exact (h4 _ hb).2.2.1 rfl
    · intro a ha hb
      rcases List.mem_append.mp ha with ha | ha
      · rcases List.mem_append.mp ha with ha | ha
        · obtain ⟨k, hk⟩ := gatewayPreIds_shape ha
          subst hk
          rcases List.mem_cons.mp hb with hb | hb
          · exact activityId_ne_join k hb
          · simp only [List.mem_singleton] at hb
            exact activityId_ne_end k hb
        · simp only [List.mem_singleton] at ha
          subst ha
          simp at hb
      · rcases List.mem_cons.mp hb with hb | hb
        · exact (h4 _ ha).2.2.2.1 hb
        · simp only [List.mem_singleton] at hb
          exact (h4 _ ha).2.1 hb

theorem headD_of_head? {l : List String} {d a : String}
    (h : l.head? = some a) : l.headD d = a := by
  cases l with
  | nil => simp at h
  | cons x t =>
    simp only [List.head?_cons, Option.some.injEq] at h
    simp [h]

theorem getLastD_of_getLast? {l : List String} {d a : String}
    (h : l.getLast? = some a) : l.getLastD d = a := by
  rw [List.getLastD_eq_getLast?, h]
  rfl

theorem gp_P1 (t : String) (arms : List Arm) :
    ("StartEvent_1", ((gatewayPreNodes t).map BNode.id).headD "Gateway_Split_1") ∈
      gatewayPairs t arms := by
  unfold gatewayPairs
  exact List.mem_append_left _ (List.mem_append_left _ (List.mem_append_left _
    (List.mem_append_left _ (List.mem_append_left _ (List.mem_append_left _
      (List.mem_singleton.mpr rfl))))))

theorem gp_P2 {t : String} {arms : List Arm} {qp : String × String}
    (h : qp ∈ chainPairs ((gatewayPreNodes t).map BNode.id)) :
    qp ∈ gatewayPairs t arms := by
  unfold gatewayPairs
  exact List.mem_append_left _ (List.mem_append_left _ (List.mem_append_left _
    (List.mem_append_left _ (List.mem_append_left _ (List.mem_append_right _ h)))))

theorem gp_P3 {t : String} {arms : List Arm}
    (h : ¬((gatewayPreNodes t).map BNode.id).isEmpty = true) :
    (((gatewayPreNodes t).map BNode.id).getLastD "Gateway_Split_1",
      "Gateway_Split_1") ∈ gatewayPairs t arms := by
  unfold gatewayPairs
  rw [if_neg h]
  exact List.mem_append_left _ (List.mem_append_left _ (List.mem_append_left _
    (List.mem_append_left _ (List.mem_append_right _ (List.mem_singleton.mpr rfl)))))

theorem gp_P4 {t : String} {arms : List Arm} {i : String}
    (h : i ∈ armFirstIds arms) :
    ("Gateway_Split_1", i) ∈ gatewayPairs t arms := by
  unfold gatewayPairs
  exact List.mem_append_left _ (List.mem_append_left _ (List.mem_append_left _
    (List.mem_append_right _ (List.mem_map_of_mem _ h))))

theorem gp_P5 {t : String} {arms : List Arm} {qp : String × String}
    (h : qp ∈ armInternalPairs arms) : qp ∈ gatewayPairs t arms := by
  unfold gatewayPairs
  exact List.mem_append_left _ (List.mem_append_left _ (List.mem_append_right _ h))

theorem gp_P6 {t : String} {arms : List Arm} {i : String}
    (h : i ∈ armLastIds arms) :
    (i, "Gateway_Join_1") ∈ gatewayPairs t arms := by
  unfold gatewayPairs
  exact List.mem_append_left _ (List.mem_append_right _ (List.mem_map_of_mem _ h))

theorem gp_P7 (t : String) (arms : List Arm) :
    ("Gateway_Join_1", "EndEvent_1") ∈ gatewayPairs t arms := by
  unfold gatewayPairs
  exact List.mem_append_right _ (List.mem_singleton.mpr rfl)

theorem gatewayPairs_cases {t : String} {arms : List Arm} {qp : String × String}
    (h : qp ∈ gatewayPairs t arms) :
    qp = ("StartEvent_1",
          ((gatewayPreNodes t).map BNode.id).headD "Gateway_Split_1") ∨
    qp ∈ chainPairs ((gatewayPreNodes t).map BNode.id) ∨
    qp = (((gatewayPreNodes t).map BNode.id).getLastD "Gateway_Split_1",
          "Gateway_Split_1") ∨
    (∃ i ∈ armFirstIds arms, qp = ("Gateway_Split_1", i)) ∨
    qp ∈ armInternalPairs arms ∨
    (∃ i ∈ armLastIds arms, qp = (i, "Gateway_Join_1")) ∨
    qp = ("Gateway_Join_1", "EndEvent_1") := by
  unfold gatewayPairs at h
  rcases List.mem_append.mp h with h | h
  swap
  · simp only [List.mem_singleton] at h
    exact Or.inr (Or.inr (Or.inr (Or.inr (Or.inr (Or.inr h)))))
  rcases List.mem_append.mp h with h | h
  swap
  · rw [List.mem_map] at h
    obtain ⟨i, hi, hqp⟩ := h
    exact Or.inr (Or.inr (Or.inr (Or.inr (Or.inr (Or.inl ⟨i, hi, hqp.symm⟩)))))
  rcases List.mem_append.mp h with h | h
  swap
  · exact Or.inr (Or.inr (Or.inr (Or.inr (Or.inl h))))
  rcases List.mem_append.mp h with h | h
  swap
  · rw [List.mem_map] at h
    obtain ⟨i, hi, hqp⟩ := h
    exact Or.inr (Or.inr (Or.inr (Or.inl ⟨i, hi, hqp.symm⟩)))
  rcases List.mem_append.mp h with h | h
  swap
  · by_cases hpre : ((gatewayPreNodes t).map BNode.id).isEmpty = true
    · rw [if_pos hpre] at h
      simp at h
    · rw [if_neg hpre] at h
      simp only [List.mem_singleton] at h
      exact Or.inr (Or.inr (Or.inl h))
  rcases List.mem_append.mp h with h | h
  · simp only [List.mem_singleton] at h
    exact Or.inl h
  · exact Or.inr (Or.inl h)

theorem gateway_in_edges (t q : String) (arms : List Arm)
    (h1 : arms ≠ []) (h2 : ∀ a ∈ arms, a ≠ []) :
    ∀ nd ∈ gatewayNodes t q arms, nd.ntype ≠ "start" →
      ∃ e ∈ numberFlows (gatewayPairs t arms) 1, e.tgt = nd.id := by
  intro nd hnd hty
  rcases List.mem_cons.mp hnd with heq | hmem
  · subst heq; exact absurd rfl hty
  rcases List.mem_append.mp hmem with hmem | hmem
  swap
  · rcases List.mem_cons.mp hmem with heq | hmem
    · subst heq
      obtain ⟨a, rest, rfl⟩ := List.exists_cons_of_ne_nil h1
      have hane : a ≠ [] := h2 a (List.mem_cons_self _ _)
      obtain ⟨p, hp⟩ : ∃ p, a.getLast? = some p := by
        have := List.getLast?_isSome.mpr hane
        cases hgl : a.getLast? with
        | none => rw [hgl] at this; simp at this
        | some p => exact ⟨p, rfl⟩
      have hlast : p.1 ∈ armLastIds (a :: rest) :=
        armLastIds_of_mem (List.mem_cons_self _ _) hp
      exact edge_tgt_of_pair (gp_P6 hlast)
    · simp only [List.mem_singleton] at hmem
      subst hmem
      exact edge_tgt_of_pair (gp_P7 t arms)
  rcases List.mem_append.mp hmem with hmem | hmem
  swap
  · -- an arm node
    have hid : nd.id ∈ arms.flatMap (fun a => a.map Prod.fst) := by
      rw [← mkArmNodes_ids arms 0 (gatewaySplitCol t + 1)]
      exact List.mem_map_of_mem _ hmem
    rw [List.mem_flatMap] at hid
    obtain ⟨a, ha, hi⟩ := hid
    rcases arm_incoming ha hi with hf | ⟨qp, hq, hq2⟩
    · exact edge_tgt_of_pair (gp_P4 hf)
    · cases qp with
      | mk qa qb =>
        simp only at hq2
        subst hq2
        exact edge_tgt_of_pair (gp_P5 hq)
  rcases List.mem_append.mp hmem with hmem | hmem
  swap
  · -- the split gateway
    simp only [List.mem_singleton] at hmem
    subst hmem
    by_cases hpre : ((gatewayPreNodes t).map BNode.id).isEmpty = true
    · have hnil : (gatewayPreNodes t).map BNode.id = [] :=
        List.isEmpty_iff.mp hpre
      have := gp_P1 t arms
      rw [hnil] at this
      exact edge_tgt_of_pair this
    · exact edge_tgt_of_pair (gp_P3 hpre)
  · -- a pre-branch task
    have hid : nd.id ∈ (gatewayPreNodes t).map BNode.id :=
      List.mem_map_of_mem _ hmem
    rcases mem_head_or_snd hid with hh | ⟨qp, hq, hq2⟩
    · have := gp_P1 t arms
      rw [headD_of_head? hh] at this
      exact edge_tgt_of_pair this
    · cases qp with
      | mk qa qb =>
        simp only at hq2
        subst hq2
        exact edge_tgt_of_pair (gp_P2 hq)

theorem gateway_out_edges (t q : String) (arms : List Arm)
    (h1 : arms ≠ []) (h2 : ∀ a ∈ arms, a ≠ []) :
    ∀ nd ∈ gatewayNodes t q arms, nd.ntype ≠ "end" →
      ∃ e ∈ numberFlows (gatewayPairs t arms) 1, e.src = nd.id := by
  intro nd hnd hty
  rcases List.mem_cons.mp hnd with heq | hmem
  · subst heq
    exact edge_src_of_pair (gp_P1 t arms)
  rcases List.mem_append.mp hmem with hmem | hmem
  swap
  · rcases List.mem_cons.mp hmem with heq | hmem
    · subst heq
      exact edge_src_of_pair (gp_P7 t arms)
    · simp only [List.mem_singleton] at hmem
      subst hmem
      exact absurd rfl hty
  rcases List.mem_append.mp hmem with hmem | hmem
  swap
  · -- an arm node
    have hid : nd.id ∈ arms.flatMap (fun a => a.map Prod.fst) := by
      rw [← mkArmNodes_ids arms 0 (gatewaySplitCol t + 1)]
      exact List.mem_map_of_mem _ hmem
    rw [List.mem_flatMap] at hid
    obtain ⟨a, ha, hi⟩ := hid
    rcases arm_outgoing ha hi with hf | ⟨qp, hq, hq1⟩
    · exact edge_src_of_pair (gp_P6 hf)
    · cases qp with
      | mk qa qb =>
        simp only at hq1
        subst hq1
        exact edge_src_of_pair (gp_P5 hq)
  rcases List.mem_append.mp hmem with hmem | hmem
  swap
  · -- the split gateway
    simp only [List.mem_singleton] at hmem
    subst hmem
    obtain ⟨a, rest, rfl⟩ := List.exists_cons_of_ne_nil h1
    have hane : a ≠ [] := h2 a (List.mem_cons_self _ _)
    obtain ⟨p, hp⟩ : ∃ p, a.head? = some p := by
      cases a with
      | nil => exact absurd rfl hane
      | cons x xt => exact ⟨x, rfl⟩
    have hfirst : p.1 ∈ armFirstIds (a :: rest) :=
      armFirstIds_of_mem (List.mem_cons_self _ _) hp
    exact edge_src_of_pair (gp_P4 hfirst)
  · -- a pre-branch task
    have hid : nd.id ∈ (gatewayPreNodes t).map BNode.id :=
      List.mem_map_of_mem _ hmem
    have hprene : ¬((gatewayPreNodes t).map BNode.id).isEmpty = true := by
      intro hcontra
      rw [List.isEmpty_iff] at hcontra
      rw [hcontra] at hid
      simp at hid
    rcases mem_last_or_fst hid with hh | ⟨qp, hq, hq1⟩
    · have : (((gatewayPreNodes t).map BNode.id).getLastD "Gateway_Split_1",
          "Gateway_Split_1") ∈ gatewayPairs t arms := gp_P3 hprene
      rw [getLastD_of_getLast? hh] at this
      exact edge_src_of_pair this
    · cases qp with
      | mk qa qb =>
        simp only at hq1
        subst hq1
        exact edge_src_of_pair (gp_P2 hq)

theorem gateway_edge_closure (t q : String) (arms : List Arm) :
    ∀ e ∈ numberFlows (gatewayPairs t arms) 1,
      e.src ∈ (gatewayNodes t q arms).map BNode.id ∧
      e.tgt ∈ (gatewayNodes t q arms).map BNode.id := by
  have hstart : "StartEvent_1" ∈ (gatewayNodes t q arms).map BNode.id := by
    rw [gatewayNodes_ids]; exact List.mem_cons_self _ _
  have hin : ∀ i, (i ∈ (gatewayPreNodes t).map BNode.id ∨ i = "Gateway_Split_1" ∨
      i ∈ arms.flatMap (fun a => a.map Prod.fst) ∨ i = "Gateway_Join_1" ∨
      i = "EndEvent_1") → i ∈ (gatewayNodes t q arms).map BNode.id := by
    intro i hi
    rw [gatewayNodes_ids]
    apply List.mem_cons_of_mem
    rcases hi with h | h | h | h | h
    · exact List.mem_append_left _ (List.mem_append_left _ (List.mem_append_left _ h))
    · subst h
      exact List.mem_append_left _ (List.mem_append_left _
        (List.mem_append_right _ (List.mem_singleton.mpr rfl)))
    · exact List.mem_append_left _ (List.mem_append_right _ h)
    · subst h
      exact List.mem_append_right _ (List.mem_cons_self _ _)
    · subst h
      exact List.mem_append_right _
        (List.mem_cons_of_mem _ (List.mem_singleton.mpr rfl))
  intro e he
  have hp := numberFlows_mem_pair he
  rcases gatewayPairs_cases hp with h | h | h | ⟨i, hi, h⟩ | h | ⟨i, hi, h⟩ | h
  · have h1 : e.src = "StartEvent_1" := congrArg Prod.fst h
    have h2 : e.tgt = ((gatewayPreNodes t).map BNode.id).headD "Gateway_Split_1" :=
      congrArg Prod.snd h
    refine ⟨h1 ▸ hstart, ?_⟩
    rw [h2]
    cases hpre : (gatewayPreNodes t).map BNode.id with
    | nil => exact hin _ (Or.inr (Or.inl rfl))
    | cons x xs =>
      have : (x :: xs).headD "Gateway_Split_1" = x := rfl
      rw [this]
      apply hin
      left
      rw [hpre]
      exact List.mem_cons_self _ _
  · constructor
    · exact hin _ (Or.inl (chainPairs_fst_mem (by
        have : (e.src, e.tgt) ∈ chainPairs ((gatewayPreNodes t).map BNode.id) := h
        exact this)))
    · exact hin _ (Or.inl (chainPairs_snd_mem (by
        have : (e.src, e.tgt) ∈ chainPairs ((gatewayPreNodes t).map BNode.id) := h
        exact this)))
  · have h1 : e.src = ((gatewayPreNodes t).map BNode.id).getLastD "Gateway_Split_1" :=
      congrArg Prod.fst h
    have h2 : e.tgt = "Gateway_Split_1" := congrArg Prod.snd h
    refine ⟨?_, hin _ (Or.inr (Or.inl h2))⟩
    rw [h1]
    cases hpre : (gatewayPreNodes t).map BNode.id with
    | nil => exact hin _ (Or.inr (Or.inl rfl))
    | cons x xs =>
      apply hin
      left
      rw [hpre]
      have hsome : ∃ a, (x :: xs).getLast? = some a := by
        cases hgl : (x :: xs).getLast? with
        | none => simp at hgl
        | some a => exact ⟨a, rfl⟩
      obtain ⟨a, ha⟩ := hsome
      rw [getLastD_of_getLast? ha]
      exact List.mem_of_mem_getLast? ha
  · have h1 : e.src = "Gateway_Split_1" := congrArg Prod.fst h
    have h2 : e.tgt = i := congrArg Prod.snd h
    exact ⟨hin _ (Or.inr (Or.inl h1)),
           hin _ (Or.inr (Or.inr (Or.inl (h2 ▸ armFirstIds_subset hi))))⟩
  · have := armInternalPairs_mem h
    exact ⟨hin _ (Or.inr (Or.inr (Or.inl this.1))),
           hin _ (Or.inr (Or.inr (Or.inl this.2)))⟩
  · have h1 : e.src = i := congrArg Prod.fst h
    have h2 : e.tgt = "Gateway_Join_1" := congrArg Prod.snd h
    exact ⟨hin _ (Or.inr (Or.inr (Or.inl (h1 ▸ armLastIds_subset hi)))),
           hin _ (Or.inr (Or.inr (Or.inr (Or.inl h2))))⟩
  · have h1 : e.src = "Gateway_Join_1" := congrArg Prod.fst h
    have h2 : e.tgt = "EndEvent_1" := congrArg Prod.snd h
    exact ⟨hin _ (Or.inr (Or.inr (Or.inr (Or.inl h1)))),
           hin _ (Or.inr (Or.inr (Or.inr (Or.inr h2))))⟩

theorem gateway_start_count (t q : String) (arms : List Arm) :
    ((gatewayNodes t q arms).filter (fun n => n.ntype == "start")).length = 1 := by
  have hpre0 : (gatewayPreNodes t).filter (fun n => n.ntype == "start") = [] := by
    rw [List.filter_eq_nil_iff]
    intro nd hnd
    obtain ⟨k, _, _, hty, _⟩ := mkTasks_shape _ _ nd hnd
    simp [hty]
  have harm0 : (gatewayArmNodes t arms).filter (fun n => n.ntype == "start") = [] := by
    rw [List.filter_eq_nil_iff]
    intro nd hnd
    have hty := mkArmNodes_types arms 0 _ nd hnd
    simp [hty]
  unfold gatewayNodes
  rw [List.filter_cons_of_pos (by rfl)]
  simp only [List.filter_append, hpre0, harm0]
  rw [List.filter_cons_of_neg (by simp),
      List.filter_cons_of_neg (by simp),
      List.filter_cons_of_neg (by simp)]
  rfl

theorem gateway_end_count (t q : String) (arms : List Arm) :
    ((gatewayNodes t q arms).filter (fun n => n.ntype == "end")).length = 1 := by
  have hpre0 : (gatewayPreNodes t).filter (fun n => n.ntype == "end") = [] := by
    rw [List.filter_eq_nil_iff]
    intro nd hnd
    obtain ⟨k, _, _, hty, _⟩ := mkTasks_shape _ _ nd hnd
    simp [hty]
  have harm0 : (gatewayArmNodes t arms).filter (fun n => n.ntype == "end") = [] := by
    rw [List.filter_eq_nil_iff]
    intro nd hnd
    have hty := mkArmNodes_types arms 0 _ nd hnd
    simp [hty]
  unfold gatewayNodes
  rw [List.filter_cons_of_neg (by simp)]
  simp only [List.filter_append, hpre0, harm0]
  rw [List.filter_cons_of_neg (by simp),
      List.filter_cons_of_neg (by simp),
      List.filter_cons_of_pos (by rfl)]
  rfl

theorem buildGateway_wf (t q : String) (arms : List Arm)
    (h1 : arms ≠ []) (h2 : ∀ a ∈ arms, a ≠ [])
    (h3 : (arms.flatMap (fun a => a.map Prod.fst)).Nodup)
    (h4 : ∀ i ∈ arms.flatMap (fun a => a.map Prod.fst),
       i ≠ "StartEvent_1" ∧ i ≠ "EndEvent_1" ∧ i ≠ "Gateway_Split_1" ∧
       i ≠ "Gateway_Join_1" ∧ ∀ k, i ≠ activityId k) :
    WellFormed (buildGateway t q arms) := by
  refine ⟨gateway_ids_nodup t q arms h3 h4,
          fun e he => gateway_edge_closure t q arms e he,
          gateway_start_count t q arms,
          gateway_end_count t q arms,
          fun nd hnd hty => gateway_in_edges t q arms h1 h2 nd hnd hty,
          fun nd hnd hty => gateway_out_edges t q arms h1 h2 nd hnd hty⟩

theorem buildLinear_start_count (steps : List String) :
    ((buildLinear steps).nodes.filter (fun n => n.ntype == "start")).length = 1 := by
  have hpre0 : (mkTasks (steps.map _format_label_with_role) 1).filter
      (fun n => n.ntype == "start") = [] := by
    rw [List.filter_eq_nil_iff]
    intro nd hnd
    obtain ⟨k, _, _, hty, _⟩ := mkTasks_shape _ _ nd hnd
    simp [hty]
  show ((⟨"StartEvent_1", "start", "شروع", 0, 0⟩ ::
    (mkTasks (steps.map _format_label_with_role) 1 ++
     [⟨"EndEvent_1", "end", "پایان", steps.length + 1, 0⟩])).filter
      (fun n => n.ntype == "start")).length = 1
  rw [List.filter_cons_of_pos (by rfl)]
  simp only [List.filter_append, hpre0]
  rw [List.filter_cons_of_neg (by simp)]
  rfl

theorem buildLinear_end_count (steps : List String) :
    ((buildLinear steps).nodes.filter (fun n => n.ntype == "end")).length = 1 := by
  have hpre0 : (mkTasks (steps.map _format_label_with_role) 1).filter
      (fun n => n.ntype == "end") = [] := by
    rw [List.filter_eq_nil_iff]
    intro nd hnd
    obtain ⟨k, _, _, hty, _⟩ := mkTasks_shape _ _ nd hnd
    simp [hty]
  show ((⟨"StartEvent_1", "start", "شروع", 0, 0⟩ ::
    (mkTasks (steps.map _format_label_with_role) 1 ++
     [⟨"EndEvent_1", "end", "پایان", steps.length + 1, 0⟩])).filter
      (fun n => n.ntype == "end")).length = 1
  rw [List.filter_cons_of_neg (by simp)]
  simp only [List.filter_append, hpre0]
  rw [List.filter_cons_of_pos (by rfl)]
  rfl

theorem buildLinear_wf (steps : List String) : WellFormed (buildLinear steps) := by
  have hids := buildLinear_ids steps
  have hedges : (buildLinear steps).edges =
      numberFlows (chainPairs (linearIds steps.length)) 1 := buildLinear_edges steps
  have hmemids : ∀ nd ∈ (buildLinear steps).nodes,
      nd.id ∈ linearIds steps.length := by
    intro nd hnd
    rw [← hids]
    exact List.mem_map_of_mem _ hnd
  have hshape : ∀ nd ∈ (buildLinear steps).nodes,
      nd.ntype = "start" ∧ nd.id = "StartEvent_1" ∨
      (nd.ntype = "task" ∧ ∃ k, nd.id = activityId k) ∨
      nd.ntype = "end" ∧ nd.id = "EndEvent_1" := by
    intro nd hnd
    rcases List.mem_cons.mp hnd with heq | hmem
    · subst heq; exact Or.inl ⟨rfl, rfl⟩
    · rcases List.mem_append.mp hmem with hmem | hmem
      · obtain ⟨k, _, _, hty, hid⟩ := mkTasks_shape _ _ nd hmem
        exact Or.inr (Or.inl ⟨hty, k, hid⟩)
      · simp only [List.mem_singleton] at hmem
        subst hmem
        exact Or.inr (Or.inr ⟨rfl, rfl⟩)
  refine ⟨by rw [hids]; exact linearIds_nodup steps.length, ?_, ?_, ?_, ?_, ?_⟩
  · intro e he
    rw [hedges] at he
    have hp := numberFlows_mem_pair he
    rw [hids]
    exact ⟨chainPairs_fst_mem hp, chainPairs_snd_mem hp⟩
  · exact buildLinear_start_count steps
  · exact buildLinear_end_count steps
  · intro nd hnd hty
    have hid := hmemids nd hnd
    rcases mem_head_or_snd hid with hh | ⟨qp, hq, hq2⟩
    · exfalso
      have hidstart : nd.id = "StartEvent_1" := by
        have : (linearIds steps.length).head? = some "StartEvent_1" := rfl
        rw [this] at hh
        exact (Option.some.injEq .. ▸ hh.symm)
      rcases hshape nd hnd with ⟨h1, _⟩ | ⟨_, k, h2⟩ | ⟨_, h2⟩
      · exact hty h1
      · rw [hidstart] at h2
        exact activityId_ne_start k h2.symm
      · rw [hidstart] at h2
        simp at h2
    · cases qp with
      | mk qa qb =>
        simp only at hq2
        subst hq2
        rw [hedges]
        exact edge_tgt_of_pair hq
  · intro nd hnd hty
    have hid := hmemids nd hnd
    rcases mem_last_or_fst hid with hh | ⟨qp, hq, hq1⟩
    · exfalso
      have hidend : nd.id = "EndEvent_1" := by
        rw [linearIds_last] at hh
        exact (Option.some.injEq .. ▸ hh.symm)
      rcases hshape nd hnd with ⟨_, h2⟩ | ⟨_, k, h2⟩ | ⟨h1, _⟩
      · rw [hidend] at h2
        simp at h2
      · rw [hidend] at h2
        exact activityId_ne_end k h2.symm
      · exact hty h1
    · cases qp with
      | mk qa qb =>
        simp only at hq1
        subst hq1
        rw [hedges]
        exact edge_src_of_pair hq

theorem armsOfBranch_ne_nil (b : Branch) : armsOfBranch b ≠ [] := by
  simp [armsOfBranch]

theorem armsOfBranch_each_ne_nil (b : Branch) :
    ∀ a ∈ armsOfBranch b, a ≠ [] := by
  intro a ha
  unfold armsOfBranch at ha
  rcases List.mem_cons.mp ha with heq | hmem
  · subst heq; simp
  · simp only [List.mem_singleton] at hmem
    subst hmem; simp

theorem armsOfBranch_flat_ids (b : Branch) :
    (armsOfBranch b).flatMap (fun a => a.map Prod.fst) =
      "Activity_Yes_1" :: "Activity_No_1" ::
        (if b.after_no_action ≠ "" then ["Activity_No_2"] else []) := by
  unfold armsOfBranch
  by_cases hafter : b.after_no_action ≠ ""
  · rw [if_pos hafter, if_pos hafter]
    rfl
  · rw [if_neg hafter, if_neg hafter]
    rfl

theorem armsOfBranch_h3 (b : Branch) :
    ((armsOfBranch b).flatMap (fun a => a.map Prod.fst)).Nodup := by
  rw [armsOfBranch_flat_ids]
  by_cases hafter : b.after_no_action ≠ ""
  · rw [if_pos hafter]; decide
  · rw [if_neg hafter]; decide

theorem armsOfBranch_h4 (b : Branch) :
    ∀ i ∈ (armsOfBranch b).flatMap (fun a => a.map Prod.fst),
      i ≠ "StartEvent_1" ∧ i ≠ "EndEvent_1" ∧ i ≠ "Gateway_Split_1" ∧
      i ≠ "Gateway_Join_1" ∧ ∀ k, i ≠ activityId k := by
  intro i hi
  rw [armsOfBranch_flat_ids] at hi
  have hcases : i = "Activity_Yes_1" ∨ i = "Activity_No_1" ∨
      i = "Activity_No_2" := by
    rcases List.mem_cons.mp hi with h | h
    · exact Or.inl h
    rcases List.mem_cons.mp h with h | h
    · exact Or.inr (Or.inl h)
    by_cases hafter : b.after_no_action ≠ ""
    · rw [if_pos hafter] at h
      simp only [List.mem_singleton] at h
      exact Or.inr (Or.inr h)
    · rw [if_neg hafter] at h
      simp at h
  rcases hcases with h | h | h <;> subst h
  · exact ⟨by decide, by decide, by decide, by decide,
      fun k => (activityId_ne_yes k).symm⟩
  · exact ⟨by decide, by decide, by decide, by decide,
      fun k => (activityId_ne_no1 k).symm⟩
  · exact ⟨by decide, by decide, by decide, by decide,
      fun k => (activityId_ne_no2 k).symm⟩

theorem mkArmsB_flat_ids :
    ∀ (ls : List String) (i : Nat),
      (mkArmsB ls i).flatMap (fun a => a.map Prod.fst) =
        (List.range ls.length).map (fun j => activityBId (i + j)) := by
  intro ls
  induction ls with
  | nil => intro i; rfl
  | cons l ls' ih =>
    intro i
    simp only [List.length_cons]
    rw [List.range_succ_eq_map]
    simp only [mkArmsB, List.flatMap_cons, List.map_cons, List.map_map]
    have hf : ((fun j => activityBId (i + j)) ∘ (· + 1)) =
        (fun j => activityBId ((i + 1) + j)) := by
      funext j
      simp only [Function.comp]
      congr 1
      omega
    rw [hf, ← ih (i + 1)]
    simp

theorem mkArmsB_each_ne_nil :
    ∀ (ls : List String) (i : Nat) (a : Arm), a ∈ mkArmsB ls i → a ≠ [] := by
  intro ls
  induction ls with
  | nil => intro i a h; simp [mkArmsB] at h
  | cons l ls' ih =>
    intro i a h
    rcases List.mem_cons.mp h with heq | hmem
    · subst heq; simp
    · exact ih (i + 1) a hmem

theorem mkArmsB_h3 (ls : List String) (i : Nat) :
    ((mkArmsB ls i).flatMap (fun a => a.map Prod.fst)).Nodup := by
  rw [mkArmsB_flat_ids]
  apply List.Nodup.map
  · intro a b hab
    have := activityBId_inj hab
    omega
  · exact List.nodup_range _

theorem mkArmsB_h4 (ls : List String) (i : Nat) :
    ∀ x ∈ (mkArmsB ls i).flatMap (fun a => a.map Prod.fst),
      x ≠ "StartEvent_1" ∧ x ≠ "EndEvent_1" ∧ x ≠ "Gateway_Split_1" ∧
      x ≠ "Gateway_Join_1" ∧ ∀ k, x ≠ activityId k := by
  intro x hx
  rw [mkArmsB_flat_ids] at hx
  rw [List.mem_map] at hx
  obtain ⟨j, _, hj⟩ := hx
  subst hj
  exact ⟨activityBId_ne_start _, activityBId_ne_end _, activityBId_ne_split _,
    activityBId_ne_join _, fun k => (activityId_ne_B k _).symm⟩

theorem multi_some_len {t : String} {mb : MultiBranch}
    (h : _detect_multi_branch t = some mb) : 2 ≤ mb.branches.length := by
  unfold _detect_multi_branch at h
  by_cases hlen :
      (findAllMulti (reFuel (collapseRuns t.data)) (collapseRuns t.data)).length < 2
  · rw [if_pos hlen] at h
    simp at h
  · rw [if_neg hlen] at h
    have hmb := (Option.some.injEq .. ▸ h.symm)
    rw [hmb]
    simpa using Nat.le_of_not_lt hlen

theorem mkArmsB_ne_nil {ls : List String} (h : ls ≠ []) (i : Nat) :
    mkArmsB ls i ≠ [] := by
  obtain ⟨x, rest, rfl⟩ := List.exists_cons_of_ne_nil h
  simp [mkArmsB]

/-- C3: every graph that `convert_text_to_bpmn` succeeds in producing
— linear, two-way-branch, or multi-branch — is well-formed: distinct
node ids, edge endpoints among the node ids, exactly one start and one
end node, in-degree at least 1 off the start and out-degree at least 1
off the end. -/
theorem C3_well_formed (t : String) (g : BGraph)
    (hg : convertGraph t = .ok g) : WellFormed g := by
  unfold convertGraph at hg
  by_cases hs : (_extract_steps t).isEmpty = true
  · rw [if_pos hs] at hg
    simp at hg
  rw [if_neg hs] at hg
  cases hb : _detect_branch t with
  | some b =>
    rw [hb] at hg
    have hgg := (Except.ok.injEq .. ▸ hg.symm)
    rw [hgg]
    exact buildGateway_wf t _ (armsOfBranch b) (armsOfBranch_ne_nil b)
      (armsOfBranch_each_ne_nil b) (armsOfBranch_h3 b) (armsOfBranch_h4 b)
  | none =>
    rw [hb] at hg
    cases hm : _detect_multi_branch t with
    | some mb =>
      rw [hm] at hg
      have hgg := (Except.ok.injEq .. ▸ hg.symm)
      rw [hgg]
      have hlen := multi_some_len hm
      have hne : mb.branches ≠ [] := by
        intro hcontra
        rw [hcontra] at hlen
        simp at hlen
      exact buildGateway_wf t _ (mkArmsB mb.branches 1)
        (mkArmsB_ne_nil hne 1) (mkArmsB_each_ne_nil mb.branches 1)
        (mkArmsB_h3 mb.branches 1) (mkArmsB_h4 mb.branches 1)
    | none =>
      rw [hm] at hg
      have hgg := (Except.ok.injEq .. ▸ hg.symm)
      rw [hgg]
      exact buildLinear_wf (_extract_steps t)

/-- Witness for C3 at a concrete input. -/
theorem C3_witness : WellFormed (buildLinear (_extract_steps "hello")) :=
  C3_well_formed "hello" (buildLinear (_extract_steps "hello")) (by rfl)

theorem numberFlows_filter_src :
    ∀ (ps : List (String × String)) (k : Nat) (x : String),
      ((numberFlows ps k).filter (fun e => e.src == x)).map BEdge.tgt =
        (ps.filter (fun q => q.1 == x)).map Prod.snd := by
  intro ps
  induction ps with
  | nil => intro k x; rfl
  | cons q rest ih =>
    intro k x
    cases q with
    | mk a b =>
      simp only [numberFlows, List.filter_cons]
      by_cases hax : (a == x) = true
      · simp only [hax, if_true, List.map_cons, ih]
      · simp only [hax, Bool.false_eq_true, if_false, ih]

theorem numberFlows_filter_tgt :
    ∀ (ps : List (String × String)) (k : Nat) (x : String),
      ((numberFlows ps k).filter (fun e => e.tgt == x)).map BEdge.src =
        (ps.filter (fun q => q.2 == x)).map Prod.fst := by
  intro ps
  induction ps with
  | nil => intro k x; rfl
  | cons q rest ih =>
    intro k x
    cases q with
    | mk a b =>
      simp only [numberFlows, List.filter_cons]
      by_cases hbx : (b == x) = true
      · simp only [hbx, if_true, List.map_cons, ih]
      · simp only [hbx, Bool.false_eq_true, if_false, ih]

theorem mkArmsB_firsts :
    ∀ (ls : List String) (i : Nat),
      armFirstIds (mkArmsB ls i) =
        (List.range ls.length).map (fun j => activityBId (i + j)) := by
  intro ls
  induction ls with
  | nil => intro i; rfl
  | cons l ls' ih =>
    intro i
    simp only [List.length_cons]
    rw [List.range_succ_eq_map]
    simp only [mkArmsB, armFirstIds, List.filterMap_cons, List.map_cons,
      List.map_map]
    have hf : ((fun j => activityBId (i + j)) ∘ (· + 1)) =
        (fun j => activityBId ((i + 1) + j)) := by
      funext j
      simp only [Function.comp]
      congr 1
      omega
    rw [hf, ← ih (i + 1)]
    simp [armFirstIds]

theorem mkArmsB_lasts :
    ∀ (ls : List String) (i : Nat),
      armLastIds (mkArmsB ls i) =
        (List.range ls.length).map (fun j => activityBId (i + j)) := by
  intro ls
  induction ls with
  | nil => intro i; rfl
  | cons l ls' ih =>
    intro i
    simp only [List.length_cons]
    rw [List.range_succ_eq_map]
    simp only [mkArmsB, armLastIds, List.filterMap_cons, List.map_cons,
      List.map_map]
    have hf : ((fun j => activityBId (i + j)) ∘ (· + 1)) =
        (fun j => activityBId ((i + 1) + j)) := by
      funext j
      simp only [Function.comp]
      congr 1
      omega
    rw [hf, ← ih (i + 1)]
    simp [armLastIds]

theorem mkArmsB_internal (ls : List String) (i : Nat) :
    armInternalPairs (mkArmsB ls i) = [] := by
  induction ls generalizing i with
  | nil => rfl
  | cons l ls' ih =>
    simp only [mkArmsB, armInternalPairs, List.flatMap_cons]
    have := ih (i + 1)
    unfold armInternalPairs at this
    rw [this]
    rfl

theorem getLastD_mem {l : List String} (h : l ≠ []) (d : String) :
    l.getLastD d ∈ l := by
  cases hgl : l.getLast? with
  | none =>
    have := List.getLast?_isSome.mpr h
    rw [hgl] at this
    simp at this
  | some a =>
    rw [getLastD_of_getLast? hgl]
    exact List.mem_of_mem_getLast? hgl

theorem headD_mem {l : List String} (h : l ≠ []) (d : String) :
    l.headD d ∈ l := by
  cases l with
  | nil => exact absurd rfl h
  | cons x t => exact List.mem_cons_self _ _

theorem gatewayPairs_filter_split (t : String) (ls : List String) :
    ((gatewayPairs t (mkArmsB ls 1)).filter
      (fun q => q.1 == "Gateway_Split_1")).map Prod.snd =
      armFirstIds (mkArmsB ls 1) := by
  have hP2 : (chainPairs ((gatewayPreNodes t).map BNode.id)).filter
      (fun q => q.1 == "Gateway_Split_1") = [] := by
    rw [List.filter_eq_nil_iff]
    intro q hq
    obtain ⟨k, hk⟩ := gatewayPreIds_shape (chainPairs_fst_mem
      (show (q.1, q.2) ∈ _ from hq))
    simp only [hk]
    simp [activityId_ne_split k]
  have hP6 : ((armLastIds (mkArmsB ls 1)).map
      (fun i => (i, "Gateway_Join_1"))).filter
      (fun q => q.1 == "Gateway_Split_1") = [] := by
    rw [List.filter_eq_nil_iff]
    intro q hq
    rw [List.mem_map] at hq
    obtain ⟨i, hi, hqi⟩ := hq
    rw [mkArmsB_lasts] at hi
    rw [List.mem_map] at hi
    obtain ⟨j, _, hj⟩ := hi
    subst hqi
    simp only [← hj]
    simp [activityBId_ne_split (1 + j)]
  have hP4 : ((armFirstIds (mkArmsB ls 1)).map
      (fun i => ("Gateway_Split_1", i))).filter
      (fun q => q.1 == "Gateway_Split_1") =
      (armFirstIds (mkArmsB ls 1)).map (fun i => ("Gateway_Split_1", i)) := by
    rw [List.filter_eq_self]
    intro q hq
    rw [List.mem_map] at hq
    obtain ⟨i, _, hqi⟩ := hq
    subst hqi
    rfl
  unfold gatewayPairs
  simp only [List.filter_append, hP2, hP4, hP6, mkArmsB_internal,
    List.filter_nil, List.append_nil, List.nil_append]
  rw [List.filter_cons_of_neg (by
    intro h
    exact absurd (show ("StartEvent_1" : String) = "Gateway_Split_1" from
      eq_of_beq h) (by decide)), List.filter_nil]
  have hP3 : ((if ((gatewayPreNodes t).map BNode.id).isEmpty = true then []
      else [(((gatewayPreNodes t).map BNode.id).getLastD "Gateway_Split_1",
             "Gateway_Split_1")]).filter
        (fun q => q.1 == "Gateway_Split_1")) = [] := by
    by_cases hpre : ((gatewayPreNodes t).map BNode.id).isEmpty = true
    · rw [if_pos hpre]; rfl
    · rw [if_neg hpre]
      have hne : (gatewayPreNodes t).map BNode.id ≠ [] := by
        simpa [List.isEmpty_iff] using hpre
      obtain ⟨k, hk⟩ := gatewayPreIds_shape (getLastD_mem hne "Gateway_Split_1")
      have hne2 : ((gatewayPreNodes t).map BNode.id).getLastD "Gateway_Split_1"
          ≠ "Gateway_Split_1" := by
        rw [hk]; exact activityId_ne_split k
      rw [List.filter_cons_of_neg (by intro h; exact hne2 (eq_of_beq h)),
          List.filter_nil]
  rw [hP3]
  rw [List.filter_cons_of_neg (by decide), List.filter_nil]
  simp [List.map_map]

theorem gatewayPairs_filter_join (t : String) (ls : List String) :
    ((gatewayPairs t (mkArmsB ls 1)).filter
      (fun q => q.2 == "Gateway_Join_1")).map Prod.fst =
      armLastIds (mkArmsB ls 1) := by
  have hP2 : (chainPairs ((gatewayPreNodes t).map BNode.id)).filter
      (fun q => q.2 == "Gateway_Join_1") = [] := by
    rw [List.filter_eq_nil_iff]
    intro q hq
    obtain ⟨k, hk⟩ := gatewayPreIds_shape (chainPairs_snd_mem
      (show (q.1, q.2) ∈ _ from hq))
    simp only [hk]
    simp [activityId_ne_join k]
  have hP4 : ((armFirstIds (mkArmsB ls 1)).map
      (fun i => ("Gateway_Split_1", i))).filter
      (fun q => q.2 == "Gateway_Join_1") = [] := by
    rw [List.filter_eq_nil_iff]
    intro q hq
    rw [List.mem_map] at hq
    obtain ⟨i, hi, hqi⟩ := hq
    rw [mkArmsB_firsts] at hi
    rw [List.mem_map] at hi
    obtain ⟨j, _, hj⟩ := hi
    subst hqi
    simp only [← hj]
    simp [activityBId_ne_join (1 + j)]
  have hP6 : ((armLastIds (mkArmsB ls 1)).map
      (fun i => (i, "Gateway_Join_1"))).filter
      (fun q => q.2 == "Gateway_Join_1") =
      (armLastIds (mkArmsB ls 1)).map (fun i => (i, "Gateway_Join_1")) := by
    rw [List.filter_eq_self]
    intro q hq
    rw [List.mem_map] at hq
    obtain ⟨i, _, hqi⟩ := hq
    subst hqi
    rfl
  have hP1 : ([("StartEvent_1",
      ((gatewayPreNodes t).map BNode.id).headD "Gateway_Split_1")].filter
        (fun q => q.2 == "Gateway_Join_1")) = [] := by
    by_cases hpre : ((gatewayPreNodes t).map BNode.id).isEmpty = true
    · have hnil : (gatewayPreNodes t).map BNode.id = [] :=
        List.isEmpty_iff.mp hpre
      rw [hnil]
      rfl
    · have hne : (gatewayPreNodes t).map BNode.id ≠ [] := by
        simpa [List.isEmpty_iff] using hpre
      obtain ⟨k, hk⟩ := gatewayPreIds_shape (headD_mem hne "Gateway_Split_1")
      have hne2 : ((gatewayPreNodes t).map BNode.id).headD "Gateway_Split_1"
          ≠ "Gateway_Join_1" := by
        rw [hk]; exact activityId_ne_join k
      rw [List.filter_cons_of_neg (by intro h; exact hne2 (eq_of_beq h)),
          List.filter_nil]
  have hP3 : ((if ((gatewayPreNodes t).map BNode.id).isEmpty = true then []
      else [(((gatewayPreNodes t).map BNode.id).getLastD "Gateway_Split_1",
             "Gateway_Split_1")]).filter
        (fun q => q.2 == "Gateway_Join_1")) = [] := by
    by_cases hpre : ((gatewayPreNodes t).map BNode.id).isEmpty = true
    · rw [if_pos hpre]; rfl
    · rw [if_neg hpre]
      rw [List.filter_cons_of_neg (by
        intro h
        exact absurd (show ("Gateway_Split_1" : String) = "Gateway_Join_1"
          from eq_of_beq h) (by decide)), List.filter_nil]
  unfold gatewayPairs
  simp only [List.filter_append, hP1, hP2, hP3, hP4, hP6, mkArmsB_internal,
    List.filter_nil, List.append_nil, List.nil_append]
  rw [List.filter_cons_of_neg (by decide), List.filter_nil]
  simp only [List.append_nil, List.nil_append, List.map_map]
  have hid : (Prod.fst ∘ fun i : String => (i, "Gateway_Join_1")) = id := rfl
  rw [hid, List.map_id]

/-- C5: `_detect_multi_branch` returns `none` whenever fewer than two
branch-clause matches are found in the input; and whenever it detects a
`MultiBranch` while `_detect_branch` detected nothing and the conversion
succeeds, the split gateway's out-edges target exactly the branch tasks
`Activity_B_1 … Activity_B_N` in detection order and the join gateway's
in-edges come from exactly those tasks, so the split out-degree and the
join in-degree both equal the number of detected branch actions. -/
theorem C5_multi_branch (t : String) :
    ((findAllMulti (reFuel (collapseRuns t.data))
        (collapseRuns t.data)).length < 2 →
      _detect_multi_branch t = none) ∧
    (∀ (mb : MultiBranch) (g : BGraph), _detect_branch t = none →
      _detect_multi_branch t = some mb → convertGraph t = .ok g →
      ((g.edges.filter (fun e => e.src == "Gateway_Split_1")).map BEdge.tgt =
        (List.range mb.branches.length).map (fun j => activityBId (j + 1)) ∧
       (g.edges.filter (fun e => e.tgt == "Gateway_Join_1")).map BEdge.src =
        (List.range mb.branches.length).map (fun j => activityBId (j + 1)) ∧
       (g.edges.filter (fun e => e.src == "Gateway_Split_1")).length =
        mb.branches.length ∧
       (g.edges.filter (fun e => e.tgt == "Gateway_Join_1")).length =
        mb.branches.length)) := by
  constructor
  · intro hlen
    simp only [_detect_multi_branch]
    rw [if_pos hlen]
  · intro mb g hb hm hg
    unfold convertGraph at hg
    by_cases hs : (_extract_steps t).isEmpty = true
    · rw [if_pos hs] at hg
      simp at hg
    rw [if_neg hs] at hg
    rw [hb, hm] at hg
    have hgg := (Except.ok.injEq .. ▸ hg.symm)
    rw [hgg]
    have hcomm : (List.range mb.branches.length).map
        (fun j => activityBId (1 + j)) =
        (List.range mb.branches.length).map (fun j => activityBId (j + 1)) := by
      apply List.map_congr_left
      intro j _
      rw [Nat.add_comm]
    have h1 : (((buildGateway t "تصمیم‌گیری" (mkArmsB mb.branches 1)).edges.filter
        (fun e => e.src == "Gateway_Split_1")).map BEdge.tgt) =
        (List.range mb.branches.length).map (fun j => activityBId (j + 1)) := by
      show (((numberFlows (gatewayPairs t (mkArmsB mb.branches 1)) 1).filter
        (fun e => e.src == "Gateway_Split_1")).map BEdge.tgt) = _
      rw [numberFlows_filter_src, gatewayPairs_filter_split, mkArmsB_firsts,
        hcomm]
    have h2 : (((buildGateway t "تصمیم‌گیری" (mkArmsB mb.branches 1)).edges.filter
        (fun e => e.tgt == "Gateway_Join_1")).map BEdge.src) =
        (List.range mb.branches.length).map (fun j => activityBId (j + 1)) := by
      show (((numberFlows (gatewayPairs t (mkArmsB mb.branches 1)) 1).filter
        (fun e => e.tgt == "Gateway_Join_1")).map BEdge.src) = _
      rw [numberFlows_filter_tgt, gatewayPairs_filter_join, mkArmsB_lasts,
        hcomm]
    refine ⟨h1, h2, ?_, ?_⟩
    · have hc := congrArg List.length h1
      simpa using hc
    · have hc := congrArg List.length h2
      simpa using hc

/-- Witness for C5: one branch clause yields no multi-branch; two clauses
yield a split with out-edges to `Activity_B_1`, `Activity_B_2` and a join
of in-degree 2. -/
theorem C5_witness :
    _detect_multi_branch "اگر a بود x" = none ∧
    (((buildGateway "اگر a بود x اگر b بود y" "تصمیم‌گیری"
        (mkArmsB ["x", "y"] 1)).edges.filter
        (fun e => e.src == "Gateway_Split_1")).map BEdge.tgt =
      (List.range 2).map (fun j => activityBId (j + 1)) ∧
     ((buildGateway "اگر a بود x اگر b بود y" "تصمیم‌گیری"
        (mkArmsB ["x", "y"] 1)).edges.filter
        (fun e => e.tgt == "Gateway_Join_1")).length = 2) := by
  refine ⟨(C5_multi_branch "اگر a بود x").1 (by decide), ?_⟩
  have h := (C5_multi_branch "اگر a بود x اگر b بود y").2
    ⟨"تصمیم‌گیری", ["x", "y"]⟩
    (buildGateway "اگر a بود x اگر b بود y" "تصمیم‌گیری" (mkArmsB ["x", "y"] 1))
    (by rfl) (by rfl) (by rfl)
  exact ⟨h.1, h.2.2.2⟩

theorem pyEndsWith_append (s t : String) : pyEndsWith (s ++ t) t = true := by
  unfold pyEndsWith
  rw [show (s ++ t).data = s.data ++ t.data from rfl]
  exact List.isSuffixOf_iff_suffix.mpr (List.suffix_append _ _)

theorem normalize_ends (text : String) :
    pyEndsWith (_normalize_condition text) "؟" = true := by
  simp only [_normalize_condition]
  split
  · assumption
  · exact pyEndsWith_append _ _

theorem roleStep_question (c : List Char) (b : Branch) :
    (roleStep c b).question = b.question := by
  unfold roleStep
  split <;> rfl

theorem detectBranchRaw_question {t : String} {b : Branch}
    (h : detectBranchRaw t = some b) :
    pyEndsWith b.question "؟" = true := by
  simp only [detectBranchRaw] at h
  by_cases hg : (!containsSeq ("اگر".data) (collapseWs t.data)) = true
  · rw [if_pos hg] at h
    exact absurd h (by simp)
  · rw [if_neg hg] at h
    cases h1 : reSearch (reFuel (normPunct (collapseWs t.data))) reBranch1
        (normPunct (collapseWs t.data)) with
    | some pr =>
      obtain ⟨caps, rest⟩ := pr
      rw [h1] at h
      dsimp only at h
      have hb := Option.some_inj.mp h
      rw [← hb]
      exact normalize_ends _
    | none =>
      rw [h1] at h
      dsimp only at h
      cases h2 : reSearch (reFuel (normPunct (collapseWs t.data))) reBranch2
          (normPunct (collapseWs t.data)) with
      | some pr =>
        obtain ⟨caps, rest⟩ := pr
        rw [h2] at h
        dsimp only at h
        have hb := Option.some_inj.mp h
        rw [← hb]
        exact normalize_ends _
      | none =>
        rw [h2] at h
        dsimp only at h
        cases h3 : reSearch (reFuel t.data) reBranch3 t.data with
        | some pr =>
          obtain ⟨caps, rest⟩ := pr
          rw [h3] at h
          dsimp only at h
          have hb := Option.some_inj.mp h
          rw [← hb]
          exact normalize_ends _
        | none =>
          rw [h3] at h
          exact absurd h (by simp)

/-- C7: `_normalize_condition` returns the condition with whitespace
collapsed (runs replaced by one space, ends trimmed), every standalone
`باشد` rewritten to `است`, and a final `؟` appended exactly when the text
does not already end with `؟`; consequently its result always ends with
`؟`, and so does the question of every `Branch` that `_detect_branch`
returns. -/
theorem C7_normalize_condition (text t : String) (b : Branch)
    (hb : _detect_branch t = some b) :
    (_normalize_condition text =
      (let u : String := ⟨pyReplaceAll true false "باشد".data "است".data
          (collapseWs text.data)⟩
       if pyEndsWith u "؟" then u else u ++ "؟")) ∧
    pyEndsWith (_normalize_condition text) "؟" = true ∧
    pyEndsWith b.question "؟" = true := by
  refine ⟨rfl, normalize_ends text, ?_⟩
  unfold _detect_branch at hb
  cases hraw : detectBranchRaw t with
  | none =>
    rw [hraw] at hb
    exact absurd hb (by simp)
  | some b0 =>
    rw [hraw] at hb
    have hb0 : roleStep (collapseWs t.data) b0 = b := by simpa using hb
    rw [← hb0, roleStep_question]
    exact detectBranchRaw_question hraw

/-- Witness for C7: a concrete condition and a concrete detected branch. -/
theorem C7_witness :
    pyEndsWith (_normalize_condition "x  باشد") "؟" = true ∧
    pyEndsWith (Branch.question ⟨"a؟", "b", "c باشد d", ""⟩) "؟" = true := by
  have h := C7_normalize_condition "x  باشد" "اگر a باشد, b اما اگر c باشد d"
    ⟨"a؟", "b", "c باشد d", ""⟩ (by rfl)
  exact ⟨h.2.1, h.2.2⟩

theorem containsSeq_nil_pat : ∀ s : List Char, containsSeq [] s = true
  | [] => rfl
  | _ :: rest => by
    show (prefixMatch false [] _ || containsSeq [] rest) = true
    rfl

theorem containsSeq_cons_of_tail {pat : List Char} (c : Char) {x : List Char}
    (h : containsSeq pat x = true) : containsSeq pat (c :: x) = true := by
  show (prefixMatch false pat (c :: x) || containsSeq pat x) = true
  rw [h, Bool.or_true]

theorem prefixMatch_iff_prefix : ∀ (pat l : List Char),
    prefixMatch false pat l = true ↔ pat <+: l
  | [], l => by simp [prefixMatch, List.nil_prefix]
  | p :: ps, [] => by simp [prefixMatch]
  | p :: ps, c :: cs => by
    simp [prefixMatch, List.cons_prefix_cons, prefixMatch_iff_prefix ps cs]

theorem containsSeq_infix_iff : ∀ (pat s : List Char),
    containsSeq pat s = true ↔ pat <:+: s
  | pat, [] => by simp [containsSeq, List.isEmpty_iff, List.infix_nil]
  | pat, c :: rest => by
    rw [show containsSeq pat (c :: rest) =
      (prefixMatch false pat (c :: rest) || containsSeq pat rest) from rfl]
    rw [Bool.or_eq_true, prefixMatch_iff_prefix, containsSeq_infix_iff pat rest]
    exact (List.infix_cons_iff).symm

theorem infix_dropWhile_of_not (p : Char → Bool) :
    ∀ (pat s : List Char), (∀ c ∈ pat, p c = false) → pat <:+: s →
      pat <:+: s.dropWhile p
  | pat, [], _, h => by simpa using h
  | pat, c :: rest, hpat, h => by
    by_cases hpc : p c = true
    · rw [List.dropWhile_cons_of_pos hpc]
      rcases List.infix_cons_iff.mp h with hpre | hinf
      · cases pat with
        | nil => exact List.nil_infix
        | cons q qs =>
          obtain ⟨hqc, -⟩ := List.cons_prefix_cons.mp hpre
          have hfalse : p c = false := by
            rw [← hqc]
            exact hpat q (List.mem_cons_self _ _)
          exact absurd hpc (by simp [hfalse])
      · exact infix_dropWhile_of_not p pat rest hpat hinf
    · rwa [List.dropWhile_cons_of_neg hpc]

theorem prefixMatch_collapseRunsGo : ∀ (pat : List Char),
    (∀ c ∈ pat, isPySpace c = false) →
    ∀ (s : List Char) (b : Bool), prefixMatch false pat s = true →
      prefixMatch false pat (collapseRunsGo b s) = true
  | [], _, _, _, _ => rfl
  | t0 :: ts, hpat, s, b, h => by
    cases s with
    | nil => exact absurd h (by simp [prefixMatch])
    | cons c rest =>
      have h2 : ((t0 == c) && prefixMatch false ts rest) = true := h
      rw [Bool.and_eq_true] at h2
      obtain ⟨hbeq, hpm⟩ := h2
      have hc : isPySpace c = false := by
        have hm := hpat t0 (List.mem_cons_self _ _)
        rwa [eq_of_beq hbeq] at hm
      have hgo : collapseRunsGo b (c :: rest) = c :: collapseRunsGo false rest := by
        simp only [collapseRunsGo]
        rw [if_neg (by simp [hc])]
      rw [hgo]
      show ((t0 == c) && prefixMatch false ts (collapseRunsGo false rest)) = true
      rw [hbeq, prefixMatch_collapseRunsGo ts
        (fun x hx => hpat x (List.mem_cons_of_mem _ hx)) rest false hpm]
      rfl

theorem containsSeq_collapseRunsGo (pat : List Char)
    (hpat : ∀ c ∈ pat, isPySpace c = false) :
    ∀ (s : List Char) (b : Bool), containsSeq pat s = true →
      containsSeq pat (collapseRunsGo b s) = true := by
  intro s
  induction s with
  | nil => intro b h; exact h
  | cons c rest ih =>
    intro b h
    have h2 : (prefixMatch false pat (c :: rest) || containsSeq pat rest) = true := h
    rw [Bool.or_eq_true] at h2
    rcases h2 with hpm | hrest
    · cases pat with
      | nil => exact containsSeq_nil_pat _
      | cons t0 ts =>
        have h3 : ((t0 == c) && prefixMatch false ts rest) = true := hpm
        rw [Bool.and_eq_true] at h3
        obtain ⟨hbeq, -⟩ := h3
        have hc : isPySpace c = false := by
          have hm := hpat t0 (List.mem_cons_self _ _)
          rwa [eq_of_beq hbeq] at hm
        have hgo : collapseRunsGo b (c :: rest) =
            c :: collapseRunsGo false rest := by
          simp only [collapseRunsGo]
          rw [if_neg (by simp [hc])]
        have hpm2 := prefixMatch_collapseRunsGo (t0 :: ts) hpat (c :: rest) b hpm
        rw [hgo] at hpm2 ⊢
        show (prefixMatch false (t0 :: ts) (c :: collapseRunsGo false rest) ||
          containsSeq (t0 :: ts) (collapseRunsGo false rest)) = true
        rw [hpm2, Bool.true_or]
    · by_cases hsp : isPySpace c = true
      · cases b with
        | true =>
          have hgo : collapseRunsGo true (c :: rest) = collapseRunsGo true rest := by
            simp only [collapseRunsGo]
            rw [if_pos hsp]
            simp
          rw [hgo]
          exact ih true hrest
        | false =>
          have hgo : collapseRunsGo false (c :: rest) =
              ' ' :: collapseRunsGo true rest := by
            simp only [collapseRunsGo]
            rw [if_pos hsp]
            simp
          rw [hgo]
          exact containsSeq_cons_of_tail _ (ih true hrest)
      · have hgo : collapseRunsGo b (c :: rest) = c :: collapseRunsGo false rest := by
          simp only [collapseRunsGo]
          rw [if_neg hsp]
        rw [hgo]
        exact containsSeq_cons_of_tail _ (ih false hrest)

theorem containsSeq_stripWs (pat s : List Char)
    (hpat : ∀ c ∈ pat, isPySpace c = false)
    (h : containsSeq pat s = true) : containsSeq pat (stripWs s) = true := by
  rw [containsSeq_infix_iff] at h ⊢
  unfold stripWs
  have h1 : pat <:+: s.dropWhile isPySpace :=
    infix_dropWhile_of_not _ _ _ hpat h
  have h2 : pat.reverse <:+: (s.dropWhile isPySpace).reverse :=
    List.reverse_infix.mpr h1
  have h3 : pat.reverse <:+:
      ((s.dropWhile isPySpace).reverse.dropWhile isPySpace) :=
    infix_dropWhile_of_not _ _ _
      (fun c hc => hpat c (List.mem_reverse.mp hc)) h2
  have h4 := List.reverse_infix.mpr h3
  simpa using h4

theorem containsSeq_collapseWs (pat s : List Char)
    (hpat : ∀ c ∈ pat, isPySpace c = false)
    (h : containsSeq pat s = true) :
    containsSeq pat (collapseWs s) = true :=
  containsSeq_collapseRunsGo pat hpat (stripWs s) false
    (containsSeq_stripWs pat s hpat h)

/-- C8: when the role keyword `کارشناس` occurs anywhere in the input
text and `_detect_branch` returns a `Branch`, each of the two actions
extracted by the grammar step is returned with the keyword and a space
prepended when the extracted action does not already contain the keyword,
and unchanged when it does; the question and follow-up are untouched. -/
theorem C8_role_prefix (t : String) (b : Branch)
    (hocc : containsSeq expertTok t.data = true)
    (hb : _detect_branch t = some b) :
    ∃ b0 : Branch, detectBranchRaw t = some b0 ∧
      b.question = b0.question ∧ b.after_no_action = b0.after_no_action ∧
      b.yes_action = (if containsSeq expertTok b0.yes_action.data then
        b0.yes_action else "کارشناس " ++ b0.yes_action) ∧
      b.no_action = (if containsSeq expertTok b0.no_action.data then
        b0.no_action else "کارشناس " ++ b0.no_action) := by
  unfold _detect_branch at hb
  cases hraw : detectBranchRaw t with
  | none =>
    rw [hraw] at hb
    exact absurd hb (by simp)
  | some b0 =>
    rw [hraw] at hb
    have hb0 : roleStep (collapseWs t.data) b0 = b := by simpa using hb
    have hcw : containsSeq expertTok (collapseWs t.data) = true :=
      containsSeq_collapseWs expertTok t.data (by decide) hocc
    refine ⟨b0, rfl, ?_⟩
    rw [← hb0]
    unfold roleStep
    rw [if_pos hcw]
    exact ⟨rfl, rfl, rfl, rfl⟩

/-- Witness for C8: the keyword occurs once; the yes action already
contains it and stays, the no action gets it prepended. -/
theorem C8_witness :
    ∃ b0 : Branch,
      detectBranchRaw "اگر a باشد, کارشناس b اما اگر c باشد d" = some b0 ∧
      ("a؟" : String) = b0.question ∧ ("" : String) = b0.after_no_action ∧
      ("کارشناس b" : String) =
        (if containsSeq expertTok b0.yes_action.data then b0.yes_action
         else "کارشناس " ++ b0.yes_action) ∧
      ("کارشناس c باشد d" : String) =
        (if containsSeq expertTok b0.no_action.data then b0.no_action
         else "کارشناس " ++ b0.no_action) :=
  C8_role_prefix "اگر a باشد, کارشناس b اما اگر c باشد d"
    ⟨"a؟", "کارشناس b", "کارشناس c باشد d", ""⟩ (by decide) (by rfl)

/-- C4: refuted.  The input `در صورتی که a باشد، b؛ اما در صورتی که c
باشد، d` is in the `در صورتی که` surface form — grammar 2 matches it with
condition `a`, yes-action `b` and no-action `d` — and the word `اگر` does
not occur in it, yet `_detect_branch` returns `none`: the early `اگر`
guard of the source returns before grammar 2 is ever tried. -/
theorem C4_dar_surati_guard :
    _detect_branch "در صورتی که a باشد، b؛ اما در صورتی که c باشد، d" = none ∧
    containsSeq "اگر".data
      "در صورتی که a باشد، b؛ اما در صورتی که c باشد، d".data = false ∧
    (reSearch (reFuel (normPunct (collapseWs
        "در صورتی که a باشد، b؛ اما در صورتی که c باشد، d".data))) reBranch2
      (normPunct (collapseWs
        "در صورتی که a باشد، b؛ اما در صورتی که c باشد، d".data))).map
      (fun pr => ((⟨stripWs (capGet pr.1 1)⟩ : String),
        (⟨stripWs (capGet pr.1 2)⟩ : String),
        (⟨stripWs (capGet pr.1 4)⟩ : String))) = some ("a", "b", "d") :=
  ⟨rfl, rfl, rfl⟩

/-- Witness for C2: a one-step linear input. -/
theorem C2_witness :
    (buildLinear (_extract_steps "hello")).nodes.length =
      (_extract_steps "hello").length + 2 ∧
    (buildLinear (_extract_steps "hello")).edges.length =
      (_extract_steps "hello").length + 1 ∧
    (buildLinear (_extract_steps "hello")).nodes.map BNode.id =
      linearIds (_extract_steps "hello").length ∧
    (buildLinear (_extract_steps "hello")).edges =
      numberFlows (chainPairs (linearIds (_extract_steps "hello").length)) 1 ∧
    ∃! p, IsPathFromTo (buildLinear (_extract_steps "hello"))
      "StartEvent_1" "EndEvent_1" p :=
  C2_linear_graph "hello" _ (by rfl) (by rfl) (by decide) (by rfl)

end TextToBpmn
